import Mathlib

/-!
Verification of the event-driven backtesting engine.

This file gives a shallow embedding, in Lean 4, of the simulation kernel of
the repository: the event model (`events.py`), the order-matching engine
(`execution_handler.py`), the portfolio ledger (`portfolio.py`) and the
Market-event dispatch of the simulation driver (`backtester.py`), together
with theorems settling the specification claims about them.

Modelling conventions:
* Python floats are modelled as rationals (`ℚ`); Python ints as `ℤ`/`ℕ`.
* Python's `int(x)` truncation toward zero is `pyInt`.
* Python dicts keyed by strings / ints are association lists in insertion
  order (CPython dicts preserve insertion order); `dictInsert` mirrors
  `d[k] = v` (overwrite in place if the key exists, else append),
  `dictSet` mirrors mutation of an existing entry, `dictErase` mirrors
  `del d[k]`.
* A Python exception (`TypeError` from comparing a price with `None`,
  `KeyError`, `ZeroDivisionError`) is an `Except String` error value; the
  driver catches such exceptions per event, so state mutated before the
  raise persists and is threaded explicitly.
* The order/fill `direction` and `order_type` are the literal strings the
  source uses ("BUY", "SELL", "MKT", "LMT", ...).
* `OrderEvent.highest_price_seen` / `lowest_price_seen` are initialised to
  `-inf` / `+inf` in the source; `none` models the infinite initial value.
* The field written `partial_fill` in the source is named `part_fill`
  here; `partial_fill_volume_pct` is `part_fill_volume_pct`.
-/

/-- Python `int(x)` for a rational `x`: truncation toward zero. -/
def pyInt (q : ℚ) : ℤ := if 0 ≤ q then ⌊q⌋ else -⌊-q⌋

/-- One OHLCV bar (`open, high, low, close, volume` columns of the CSV data);
`open` is a Lean keyword, hence `open_`. -/
structure Bar where
  open_ : ℚ
  high : ℚ
  low : ℚ
  close : ℚ
  volume : ℚ
  deriving DecidableEq, Repr

/-- The bar source as seen by the engine: `bars.get_latest_bars(symbol)[0]`
is a `(datetime, row)` pair; timestamps are epoch seconds. -/
def BarsFn : Type := String → ℤ × Bar

/-- `events.OrderEvent` (events.py lines 38-54). -/
structure OrderEvent where
  symbol : String
  order_type : String
  quantity : ℤ
  direction : String
  limit_price : Option ℚ
  stop_price : Option ℚ
  trail_price : Option ℚ
  immediate_fill : Bool
  filled_quantity : ℤ
  highest_price_seen : Option ℚ
  lowest_price_seen : Option ℚ
  deriving DecidableEq, Repr

/-- `OrderEvent.__init__`: `filled_quantity = 0`,
`highest_price_seen = -inf`, `lowest_price_seen = +inf`. -/
def OrderEvent.make (symbol order_type : String) (quantity : ℤ)
    (direction : String) (limit_price stop_price trail_price : Option ℚ)
    (immediate_fill : Bool) : OrderEvent :=
  { symbol, order_type, quantity, direction, limit_price, stop_price,
    trail_price, immediate_fill, filled_quantity := 0,
    highest_price_seen := none, lowest_price_seen := none }

/-- `events.FillEvent` (events.py lines 64-84). -/
structure FillEvent where
  timeindex : ℤ
  symbol : String
  exchange : String
  quantity : ℤ
  direction : String
  fill_cost : ℚ
  order_id : Option ℕ
  part_fill : Bool
  commission : ℚ
  deriving DecidableEq, Repr

/-- `FillEvent.__init__`: a `None` commission defaults to `0.0`
(events.py lines 81-84). -/
def FillEvent.make (timeindex : ℤ) (symbol exchange : String) (quantity : ℤ)
    (direction : String) (fill_cost : ℚ) (commission : Option ℚ)
    (order_id : Option ℕ) (part_fill : Bool) : FillEvent :=
  { timeindex, symbol, exchange, quantity, direction, fill_cost, order_id,
    part_fill,
    commission := match commission with | none => 0 | some c => c }

/-- `events.SignalEvent` (events.py lines 16-36); only the fields the driver
model needs. -/
structure SignalEvent where
  symbol : String
  datetime : ℤ
  signal_type : String
  strength : ℚ
  deriving DecidableEq, Repr

/-! ### Python dict operations on association lists -/

/-- `d[k]` as an option (`None` when the key is absent). -/
def dictFind {κ α : Type} [DecidableEq κ] (l : List (κ × α)) (k : κ) :
    Option α :=
  (l.find? (fun p => decide (p.1 = k))).map (·.2)

/-- Overwrite the value at an existing key (in-place mutation of the entry
object); identity when the key is absent. -/
def dictSet {κ α : Type} [DecidableEq κ] (l : List (κ × α)) (k : κ) (v : α) :
    List (κ × α) :=
  l.map (fun p => if p.1 = k then (k, v) else p)

/-- `d[k] = v`: overwrite in place if present, else append (CPython
insertion-order semantics). -/
def dictInsert {κ α : Type} [DecidableEq κ] (l : List (κ × α)) (k : κ)
    (v : α) : List (κ × α) :=
  if (l.find? (fun p => decide (p.1 = k))).isSome then dictSet l k v
  else l ++ [(k, v)]

/-- `del d[k]`. -/
def dictErase {κ α : Type} [DecidableEq κ] (l : List (κ × α)) (k : κ) :
    List (κ × α) :=
  l.filter (fun p => decide (p.1 ≠ k))

/-! ### SimulatedExecutionHandler state (execution_handler.py lines 12-24) -/

/-- The mutable state of `SimulatedExecutionHandler`: the resting-order
dict, the id counter, and the two configuration floats.  The event queue is
modelled as the list of fills an operation returns. -/
structure EngineState where
  orders : List (ℕ × OrderEvent)
  order_id : ℕ
  slippage_bps : ℚ
  part_fill_volume_pct : ℚ
  deriving Repr

/-- `SimulatedExecutionHandler.__init__` with an empty bar-source handle. -/
def initEngine (slippage_bps part_fill_volume_pct : ℚ) : EngineState :=
  { orders := [], order_id := 0, slippage_bps, part_fill_volume_pct }

/-- `_apply_slippage` (execution_handler.py lines 26-35). -/
def applySlippage (s : EngineState) (price : ℚ) (direction : String) : ℚ :=
  if s.slippage_bps = 0 then price
  else if direction = "BUY" then price * (1 + s.slippage_bps / 10000)
  else if direction = "SELL" then price * (1 - s.slippage_bps / 10000)
  else price

/-- `_fill_market_order` (execution_handler.py lines 120-132). -/
def fillMarketOrder (s : EngineState) (order_id : ℕ) (o : OrderEvent)
    (bar : ℤ × Bar) (remaining : ℤ) : FillEvent :=
  let fill_price := applySlippage s bar.2.open_ o.direction
  let max_fill_quantity := pyInt (bar.2.volume * s.part_fill_volume_pct)
  let fill_quantity := min remaining max_fill_quantity
  let pf := decide (fill_quantity < remaining)
  FillEvent.make bar.1 o.symbol "ARCA" fill_quantity o.direction
    (fill_price * fill_quantity) none (some order_id) pf

/-- `_fill_limit_order` (execution_handler.py lines 134-163); comparing a
price with a `None` limit raises `TypeError`. -/
def fillLimitOrder (s : EngineState) (order_id : ℕ) (o : OrderEvent)
    (bar : ℤ × Bar) (remaining : ℤ) : Except String (Option FillEvent) :=
  let max_fill_quantity := pyInt (bar.2.volume * s.part_fill_volume_pct)
  if o.direction = "BUY" then
    match o.limit_price with
    | none => .error "TypeError"
    | some limit =>
      if bar.2.low ≤ limit then
        let fill_price := applySlippage s (min bar.2.open_ limit) o.direction
        let fill_quantity := min remaining max_fill_quantity
        .ok (some (FillEvent.make bar.1 o.symbol "ARCA" fill_quantity
          o.direction (fill_price * fill_quantity) none (some order_id)
          (decide (fill_quantity < remaining))))
      else .ok none
  else if o.direction = "SELL" then
    match o.limit_price with
    | none => .error "TypeError"
    | some limit =>
      if bar.2.open_ ≥ limit then
        let fill_price := applySlippage s bar.2.open_ o.direction
        let fill_quantity := min remaining max_fill_quantity
        .ok (some (FillEvent.make bar.1 o.symbol "ARCA" fill_quantity
          o.direction (fill_price * fill_quantity) none (some order_id)
          (decide (fill_quantity < remaining))))
      else if bar.2.high ≥ limit then
        let fill_price := applySlippage s limit o.direction
        let fill_quantity := min remaining max_fill_quantity
        .ok (some (FillEvent.make bar.1 o.symbol "ARCA" fill_quantity
          o.direction (fill_price * fill_quantity) none (some order_id)
          (decide (fill_quantity < remaining))))
      else .ok none
  else .ok none

/-- `_fill_stop_order` (execution_handler.py lines 165-195).  In the source
`fill_price` starts at the stop, is overwritten by the open when the open is
beyond the stop, and by the touched extreme ("cheat" fill) otherwise. -/
def fillStopOrder (s : EngineState) (order_id : ℕ) (o : OrderEvent)
    (bar : ℤ × Bar) (remaining : ℤ) : Except String (Option FillEvent) :=
  let max_fill_quantity := pyInt (bar.2.volume * s.part_fill_volume_pct)
  if o.direction = "BUY" then
    match o.stop_price with
    | none => .error "TypeError"
    | some stop =>
      if bar.2.high ≥ stop then
        let p1 := stop
        let p2 := if bar.2.open_ ≥ stop then bar.2.open_ else p1
        let p3 := if bar.2.high ≥ stop ∧ bar.2.open_ < stop then bar.2.high
          else p2
        let fill_price := applySlippage s p3 o.direction
        let fill_quantity := min remaining max_fill_quantity
        .ok (some (FillEvent.make bar.1 o.symbol "ARCA" fill_quantity
          o.direction (fill_price * fill_quantity) none (some order_id)
          (decide (fill_quantity < remaining))))
      else .ok none
  else if o.direction = "SELL" then
    match o.stop_price with
    | none => .error "TypeError"
    | some stop =>
      if bar.2.low ≤ stop then
        let p1 := stop
        let p2 := if bar.2.open_ ≤ stop then bar.2.open_ else p1
        let p3 := if bar.2.low ≤ stop ∧ bar.2.open_ > stop then bar.2.low
          else p2
        let fill_price := applySlippage s p3 o.direction
        let fill_quantity := min remaining max_fill_quantity
        .ok (some (FillEvent.make bar.1 o.symbol "ARCA" fill_quantity
          o.direction (fill_price * fill_quantity) none (some order_id)
          (decide (fill_quantity < remaining))))
      else .ok none
  else .ok none

/-- `_fill_stop_limit_order` (execution_handler.py lines 197-223); the stop
field is compared first, the limit only once the stop has triggered. -/
def fillStopLimitOrder (s : EngineState) (order_id : ℕ) (o : OrderEvent)
    (bar : ℤ × Bar) (remaining : ℤ) : Except String (Option FillEvent) :=
  let max_fill_quantity := pyInt (bar.2.volume * s.part_fill_volume_pct)
  if o.direction = "BUY" then
    match o.stop_price with
    | none => .error "TypeError"
    | some stop =>
      if bar.2.high ≥ stop then
        match o.limit_price with
        | none => .error "TypeError"
        | some limit =>
          if bar.2.low ≤ limit then
            let fill_price :=
              applySlippage s (min bar.2.open_ limit) o.direction
            let fill_quantity := min remaining max_fill_quantity
            .ok (some (FillEvent.make bar.1 o.symbol "ARCA" fill_quantity
              o.direction (fill_price * fill_quantity) none (some order_id)
              (decide (fill_quantity < remaining))))
          else .ok none
      else .ok none
  else if o.direction = "SELL" then
    match o.stop_price with
    | none => .error "TypeError"
    | some stop =>
      if bar.2.low ≤ stop then
        match o.limit_price with
        | none => .error "TypeError"
        | some limit =>
          if bar.2.high ≥ limit then
            let fill_price :=
              applySlippage s (max bar.2.open_ limit) o.direction
            let fill_quantity := min remaining max_fill_quantity
            .ok (some (FillEvent.make bar.1 o.symbol "ARCA" fill_quantity
              o.direction (fill_price * fill_quantity) none (some order_id)
              (decide (fill_quantity < remaining))))
          else .ok none
      else .ok none
  else .ok none

/-- `_fill_trailing_stop_order` (execution_handler.py lines 225-263).  The
source first refreshes the trailing extremum (`max`/`min` with the initial
`∓inf` modelled by `none`), then subtracts/adds `trail_price` (raising
`TypeError` when it is `None`). -/
def fillTrailingStopOrder (s : EngineState) (order_id : ℕ) (o : OrderEvent)
    (bar : ℤ × Bar) (remaining : ℤ) : Except String (Option FillEvent) :=
  let max_fill_quantity := pyInt (bar.2.volume * s.part_fill_volume_pct)
  if o.direction = "BUY" then
    let highest := match o.highest_price_seen with
      | none => bar.2.high
      | some h => max h bar.2.high
    match o.trail_price with
    | none => .error "TypeError"
    | some tp =>
      let trail := highest - tp
      if bar.2.low ≤ trail then
        let p1 := trail
        let p2 := if bar.2.open_ ≤ trail then bar.2.open_ else p1
        let fill_price := applySlippage s p2 o.direction
        let fill_quantity := min remaining max_fill_quantity
        .ok (some (FillEvent.make bar.1 o.symbol "ARCA" fill_quantity
          o.direction (fill_price * fill_quantity) none (some order_id)
          (decide (fill_quantity < remaining))))
      else .ok none
  else if o.direction = "SELL" then
    let lowest := match o.lowest_price_seen with
      | none => bar.2.low
      | some l => min l bar.2.low
    match o.trail_price with
    | none => .error "TypeError"
    | some tp =>
      let trail := lowest + tp
      if bar.2.high ≥ trail then
        let p1 := trail
        let p2 := if bar.2.open_ ≥ trail then bar.2.open_ else p1
        let fill_price := applySlippage s p2 o.direction
        let fill_quantity := min remaining max_fill_quantity
        .ok (some (FillEvent.make bar.1 o.symbol "ARCA" fill_quantity
          o.direction (fill_price * fill_quantity) none (some order_id)
          (decide (fill_quantity < remaining))))
      else .ok none
  else .ok none

/-- `_check_order` (execution_handler.py lines 103-118); an unknown
`order_type` yields no fill. -/
def checkOrder (s : EngineState) (order_id : ℕ) (o : OrderEvent)
    (bar : ℤ × Bar) (remaining : ℤ) : Except String (Option FillEvent) :=
  if o.order_type = "MKT" then
    .ok (some (fillMarketOrder s order_id o bar remaining))
  else if o.order_type = "LMT" then fillLimitOrder s order_id o bar remaining
  else if o.order_type = "STP" then fillStopOrder s order_id o bar remaining
  else if o.order_type = "STP_LMT" then
    fillStopLimitOrder s order_id o bar remaining
  else if o.order_type = "TRAIL" then
    fillTrailingStopOrder s order_id o bar remaining
  else .ok none

example : pyInt (100000 * (1 / 10 : ℚ)) = 10000 := by norm_num [pyInt]
example : pyInt (-7 / 2 : ℚ) = -3 := by norm_num [pyInt]

/-! ### Engine operations -/

/-- `execute_order`, ORDER branch (execution_handler.py lines 41-44): the
next id is assigned and the order stored as resting. -/
def executeOrder (s : EngineState) (o : OrderEvent) : EngineState :=
  { s with order_id := s.order_id + 1,
           orders := dictInsert s.orders (s.order_id + 1) o }

/-- `execute_order`, CANCEL_ORDER branch (execution_handler.py
lines 46-48). -/
def executeCancel (s : EngineState) (id : ℕ) : EngineState :=
  if (s.orders.find? (fun p => decide (p.1 = id))).isSome then
    { s with orders := dictErase s.orders id }
  else s

/-- The trailing-extrema refresh done on every bar for TRAIL orders
(execution_handler.py lines 61-63 and 86-88). -/
def trailUpdate (o : OrderEvent) (bar : ℤ × Bar) : OrderEvent :=
  if o.order_type = "TRAIL" then
    { o with
      highest_price_seen := some (match o.highest_price_seen with
        | none => bar.2.high
        | some h => max h bar.2.high),
      lowest_price_seen := some (match o.lowest_price_seen with
        | none => bar.2.low
        | some l => min l bar.2.low) }
  else o

/-- The shared per-order body of `update` (lines 82-101) and
`process_immediate_order` (lines 56-75): refresh trailing extrema, remove
when no quantity remains, otherwise attempt a fill, accumulate
`filled_quantity` and remove once fully filled.  The result is
`(kept order if any, emitted fill if any, exception escaped)`; the kept
order reflects the in-place mutations done before any exception. -/
def entryOutcome (bars : BarsFn) (s : EngineState) (id : ℕ)
    (o : OrderEvent) : Option OrderEvent × Option FillEvent × Bool :=
  let bar := bars o.symbol
  let o' := trailUpdate o bar
  let remaining := o'.quantity - o'.filled_quantity
  if remaining ≤ 0 then (none, none, false)
  else
    match checkOrder s id o' bar remaining with
    | .error _ => (some o', none, true)
    | .ok none => (some o', none, false)
    | .ok (some f) =>
      let o'' := { o' with filled_quantity := o'.filled_quantity + f.quantity }
      if o''.quantity ≤ o''.filled_quantity then (none, some f, false)
      else (some o'', some f, false)

/-- Write an `entryOutcome` back into the engine state: erase the entry or
overwrite it in place, and surface the emitted fill. -/
def applyOutcome (s : EngineState) (id : ℕ)
    (out : Option OrderEvent × Option FillEvent × Bool) :
    EngineState × List FillEvent × Bool :=
  match out with
  | (none, f?, err) =>
    ({ s with orders := dictErase s.orders id }, f?.toList, err)
  | (some o', f?, err) =>
    ({ s with orders := dictSet s.orders id o' }, f?.toList, err)

/-- One iteration of the `update` loop over `list(self.orders.items())`
(execution_handler.py lines 82-101); once an exception has escaped the
remaining iterations never run. -/
def engineUpdateStep (bars : BarsFn)
    (acc : EngineState × List FillEvent × Bool) (e : ℕ × OrderEvent) :
    EngineState × List FillEvent × Bool :=
  match acc with
  | (s, fills, true) => (s, fills, true)
  | (s, fills, false) =>
    let r := applyOutcome s e.1 (entryOutcome bars s e.1 e.2)
    (r.1, fills ++ r.2.1, r.2.2)

/-- `update` on a MARKET event (execution_handler.py lines 77-101): iterate
over a snapshot of the resting orders, emitting fills; the Boolean is true
when an exception escaped to the driver. -/
def engineUpdate (bars : BarsFn) (s : EngineState) :
    EngineState × List FillEvent × Bool :=
  s.orders.foldl (engineUpdateStep bars) (s, [], false)

/-- `process_immediate_order` (execution_handler.py lines 50-75); a no-op
when the id is not resting.  The market-event argument of the source is
unused there (the bar is re-read from the bar source). -/
def processImmediateOrder (bars : BarsFn) (s : EngineState) (id : ℕ) :
    EngineState × List FillEvent × Bool :=
  match dictFind s.orders id with
  | none => (s, [], false)
  | some o => applyOutcome s id (entryOutcome bars s id o)

/-! ### Portfolio ledger (portfolio.py) -/

/-- The `current_holdings` dict (portfolio.py lines 76-85): per-symbol
market values plus the `cash`, `commission` and `total` keys. -/
structure Holdings where
  values : List (String × ℚ)
  cash : ℚ
  commission : ℚ
  total : ℚ
  deriving DecidableEq, Repr

/-- An entry of `open_positions_details` (portfolio.py lines 207-213 et
al.): the single open lot for a symbol. -/
structure OpenPos where
  entry_time : ℤ
  entry_price : ℚ
  quantity : ℤ
  direction : String
  total_entry_commission : ℚ
  deriving DecidableEq, Repr

/-- An entry of `closed_trades` (portfolio.py lines 166-177); `duration` is
in days (seconds / 86400). -/
structure ClosedTrade where
  symbol : String
  entry_time : ℤ
  exit_time : ℤ
  entry_price : ℚ
  exit_price : ℚ
  quantity : ℤ
  direction : String
  pnl : ℚ
  commission : ℚ
  duration : ℚ
  deriving DecidableEq, Repr

/-- One row of `all_positions`. -/
structure PositionsRow where
  datetime : ℤ
  values : List (String × ℤ)
  deriving DecidableEq, Repr

/-- One row of `all_holdings`. -/
structure HoldingsRow where
  datetime : ℤ
  values : List (String × ℚ)
  cash : ℚ
  commission : ℚ
  total : ℚ
  deriving DecidableEq, Repr

/-- The mutable state of `Portfolio` (portfolio.py lines 10-24). -/
structure PortfolioState where
  symbol_list : List String
  initial_capital : ℚ
  current_positions : List (String × ℤ)
  current_holdings : Holdings
  all_positions : List PositionsRow
  all_holdings : List HoldingsRow
  open_positions_details : List (String × OpenPos)
  closed_trades : List ClosedTrade
  deriving Repr

/-- `Portfolio.__init__` (portfolio.py lines 10-24, using the constructors
at lines 55-85). -/
def initPortfolio (symbol_list : List String) (start_date : ℤ)
    (initial_capital : ℚ) : PortfolioState :=
  { symbol_list
    initial_capital
    current_positions := symbol_list.map (fun s => (s, 0))
    current_holdings :=
      { values := symbol_list.map (fun s => (s, 0))
        cash := initial_capital, commission := 0, total := initial_capital }
    all_positions := [{ datetime := start_date,
                        values := symbol_list.map (fun s => (s, 0)) }]
    all_holdings := [{ datetime := start_date,
                       values := symbol_list.map (fun s => (s, 0))
                       cash := initial_capital, commission := 0,
                       total := initial_capital }]
    open_positions_details := []
    closed_trades := [] }

/-- The sign the ledger assigns to a fill direction (portfolio.py
lines 122-126 and 136-140): two successive `if` tests, anything other than
"BUY"/"SELL" keeps 0. -/
def fillDirectionSign (direction : String) : ℤ :=
  if direction = "BUY" then 1 else if direction = "SELL" then -1 else 0

/-- `update_positions_from_fill` (portfolio.py lines 116-128);
`self.current_positions[symbol] += ...` raises `KeyError` for an untracked
symbol, before any mutation. -/
def updatePositionsFromFill (p : PortfolioState) (f : FillEvent) :
    Except String PortfolioState :=
  match dictFind p.current_positions f.symbol with
  | none => .error "KeyError"
  | some cur =>
    let v := cur + fillDirectionSign f.direction * f.quantity
    .ok { p with current_positions := dictSet p.current_positions f.symbol v }

/-- `update_holdings_from_fill` (portfolio.py lines 130-144). -/
def updateHoldingsFromFill (p : PortfolioState) (f : FillEvent) :
    PortfolioState :=
  { p with current_holdings :=
    { p.current_holdings with
      cash := p.current_holdings.cash -
        (fillDirectionSign f.direction * f.fill_cost + f.commission)
      commission := p.current_holdings.commission + f.commission } }

/-- `_create_closed_trade` (portfolio.py lines 159-178), closing
`quantity` shares of a `direction` lot. -/
def createClosedTrade (symbol : String) (entry_time exit_time : ℤ)
    (entry_price exit_price : ℚ) (quantity : ℤ) (direction : String)
    (entry_commission exit_commission : ℚ) : ClosedTrade :=
  let pnl :=
    if direction = "LONG" then
      (exit_price - entry_price) * quantity - (entry_commission + exit_commission)
    else if direction = "SHORT" then
      (entry_price - exit_price) * quantity - (entry_commission + exit_commission)
    else 0
  { symbol, entry_time, exit_time, entry_price, exit_price, quantity,
    direction, pnl, commission := entry_commission + exit_commission,
    duration := ((exit_time : ℚ) - (entry_time : ℚ)) / 86400 }

/-- The close-(part-of-)a-lot branch shared by the two directions of
`_track_trades_from_fill` (portfolio.py lines 184-213 and 231-260):
close `min(fill_qty, lot_qty)` shares of the opposite-direction lot
`pos`, mutate or delete the lot, and open a reversal lot with the excess.
`lot_dir` is the direction of the existing lot, `new_dir` of a reversal
lot.  Dividing by a zero lot quantity raises `ZeroDivisionError`. -/
def closeAgainstLot (open_pos : List (String × OpenPos))
    (closed : List ClosedTrade) (symbol : String) (pos : OpenPos)
    (fill_quantity : ℤ) (fill_price : ℚ) (fill_time : ℤ)
    (fill_commission : ℚ) (lot_dir new_dir : String) :
    Except String (List (String × OpenPos) × List ClosedTrade) :=
  if pos.quantity = 0 then .error "ZeroDivisionError"
  else
    let close_quantity := min fill_quantity pos.quantity
    let entry_commission_for_closed_portion :=
      pos.total_entry_commission / pos.quantity * close_quantity
    let closed' := closed ++ [createClosedTrade symbol pos.entry_time
      fill_time pos.entry_price fill_price close_quantity lot_dir
      entry_commission_for_closed_portion fill_commission]
    let pos' := { pos with
      quantity := pos.quantity - close_quantity
      total_entry_commission :=
        pos.total_entry_commission - entry_commission_for_closed_portion }
    let open1 := dictSet open_pos symbol pos'
    let open2 := if pos'.quantity ≤ 0 then dictErase open1 symbol else open1
    let remaining_fill_quantity := fill_quantity - close_quantity
    let open3 :=
      if 0 < remaining_fill_quantity then
        dictInsert open2 symbol
          { entry_time := fill_time, entry_price := fill_price,
            quantity := remaining_fill_quantity, direction := new_dir,
            total_entry_commission := fill_commission -
              fill_commission / fill_quantity * close_quantity }
      else open2
    .ok (open3, closed')

/-- The open-or-extend branch shared by the two directions of
`_track_trades_from_fill` (portfolio.py lines 214-228 and 261-275).
Extending a lot divides by `old_qty + fill_qty` (`ZeroDivisionError` when
that is zero). -/
def openOrExtendLot (open_pos : List (String × OpenPos)) (symbol : String)
    (existing : Option OpenPos) (fill_quantity : ℤ) (fill_price : ℚ)
    (fill_time : ℤ) (fill_commission : ℚ) (dir : String) :
    Except String (List (String × OpenPos)) :=
  match existing with
  | none =>
    .ok (dictInsert open_pos symbol
      { entry_time := fill_time, entry_price := fill_price,
        quantity := fill_quantity, direction := dir,
        total_entry_commission := fill_commission })
  | some pos =>
    let total_quantity := pos.quantity + fill_quantity
    if total_quantity = 0 then .error "ZeroDivisionError"
    else
      .ok (dictSet open_pos symbol
        { pos with
          entry_price := (pos.entry_price * pos.quantity +
            fill_price * fill_quantity) / total_quantity
          quantity := total_quantity
          total_entry_commission :=
            pos.total_entry_commission + fill_commission })

/-- `_track_trades_from_fill` (portfolio.py lines 147-276), returning the
updated `(open_positions_details, closed_trades)` — the only two fields the
source function touches. -/
def trackTradesFromFill (p : PortfolioState) (f : FillEvent) :
    Except String (List (String × OpenPos) × List ClosedTrade) :=
  let symbol := f.symbol
  let fill_quantity := f.quantity
  let fill_price := if fill_quantity ≠ 0 then f.fill_cost / fill_quantity else 0
  let fill_time := f.timeindex
  let existing := dictFind p.open_positions_details symbol
  if f.direction = "BUY" then
    match existing with
    | some pos =>
      if pos.direction = "SHORT" then
        closeAgainstLot p.open_positions_details p.closed_trades symbol pos
          fill_quantity fill_price fill_time f.commission "SHORT" "LONG"
      else
        (openOrExtendLot p.open_positions_details symbol existing
          fill_quantity fill_price fill_time f.commission "LONG").map
          (fun o => (o, p.closed_trades))
    | none =>
      (openOrExtendLot p.open_positions_details symbol existing
        fill_quantity fill_price fill_time f.commission "LONG").map
        (fun o => (o, p.closed_trades))
  else if f.direction = "SELL" then
    match existing with
    | some pos =>
      if pos.direction = "LONG" then
        closeAgainstLot p.open_positions_details p.closed_trades symbol pos
          fill_quantity fill_price fill_time f.commission "LONG" "SHORT"
      else
        (openOrExtendLot p.open_positions_details symbol existing
          fill_quantity fill_price fill_time f.commission "SHORT").map
          (fun o => (o, p.closed_trades))
    | none =>
      (openOrExtendLot p.open_positions_details symbol existing
        fill_quantity fill_price fill_time f.commission "SHORT").map
        (fun o => (o, p.closed_trades))
  else .ok (p.open_positions_details, p.closed_trades)

/-- `update_fill` (portfolio.py lines 326-334): positions, then holdings,
then trade tracking; the driver catches any exception, so mutations made
before a raise persist.  Returns the resulting state and whether an
exception escaped. -/
def updateFill (p : PortfolioState) (f : FillEvent) : PortfolioState × Bool :=
  match updatePositionsFromFill p f with
  | .error _ => (p, true)
  | .ok p1 =>
    let p2 := updateHoldingsFromFill p1 f
    match trackTradesFromFill p2 f with
    | .error _ => (p2, true)
    | .ok (op, ct) =>
      ({ p2 with open_positions_details := op, closed_trades := ct }, false)

/-- `update_timeindex` (portfolio.py lines 87-114): append one positions
row and one holdings row marked at the latest close.  Reading
`symbol_list[0]` of an empty symbol list raises `IndexError` before any
mutation; the driver catches it, leaving the state unchanged. -/
def updateTimeindex (bars : BarsFn) (p : PortfolioState) : PortfolioState :=
  match p.symbol_list with
  | [] => p
  | s0 :: _ =>
    let latest_datetime := (bars s0).1
    let dp : PositionsRow :=
      { datetime := latest_datetime
        values := p.symbol_list.map (fun s =>
          (s, (dictFind p.current_positions s).getD 0)) }
    let rows := p.symbol_list.map (fun s =>
      (s, ((dictFind p.current_positions s).getD 0 : ℤ) * (bars s).2.close))
    let dh : HoldingsRow :=
      { datetime := latest_datetime
        values := rows
        cash := p.current_holdings.cash
        commission := p.current_holdings.commission
        total := rows.foldl (fun acc r => acc + r.2) p.current_holdings.cash }
    { p with all_positions := p.all_positions ++ [dp],
             all_holdings := p.all_holdings ++ [dh] }

/-! ### Simulation driver: the MARKET branch (backtester.py lines 87-91) -/

/-- The components the driver notifies while handling one Market event. -/
inductive Component where
  | engine
  | strategy
  | portfolio
  deriving DecidableEq, Repr

/-- The driver-visible state while handling events: the engine, the
portfolio, the queued fills and signals, the recorded current market time,
and the sequence of component notifications made so far (the embedding of
the method-call order of backtester.py lines 89-91). -/
structure SimState where
  engine : EngineState
  portfolio : PortfolioState
  pendingFills : List FillEvent
  pendingSignals : List SignalEvent
  current_market_time : Option ℤ
  log : List Component
  deriving Repr

/-- `self.execution_handler.update(event)` (backtester.py line 89): the
matching pass; its fills are queued.  The Boolean is true when an
exception escaped `update` — the driver's per-event `try/except`
(backtester.py lines 86-106) then catches and logs it, so the remaining
notifications for this Market event never run. -/
def notifyEngine (bars : BarsFn) (s : SimState) : SimState × Bool :=
  let r := engineUpdate bars s.engine
  ({ s with engine := r.1, pendingFills := s.pendingFills ++ r.2.1,
            log := s.log ++ [Component.engine] }, r.2.2)

/-- `self.strategy.calculate_signals(event)` (backtester.py line 90): the
strategy is an external collaborator.  It yields the signals it put on
the queue before returning or raising, and whether it raised — in which
case the driver's per-event handler catches the exception and the
snapshot call never runs. -/
def notifyStrategy (strat : SimState → List SignalEvent × Bool)
    (s : SimState) : SimState × Bool :=
  ({ s with pendingSignals := s.pendingSignals ++ (strat s).1,
            log := s.log ++ [Component.strategy] }, (strat s).2)

/-- `self.portfolio.update_timeindex(event)` (backtester.py line 91): the
snapshot append. -/
def notifyPortfolio (bars : BarsFn) (s : SimState) : SimState :=
  { s with portfolio := updateTimeindex bars s.portfolio,
           log := s.log ++ [Component.portfolio] }

/-- The MARKET branch of the driver's event dispatch (backtester.py
lines 86-106): record the current market event, then — inside the
per-event `try/except` — notify the order-matching engine, the strategy,
and the portfolio, in the source's order; an exception escaping an
earlier call skips the later ones for this event. -/
def handleMarket (bars : BarsFn)
    (strat : SimState → List SignalEvent × Bool) (time : ℤ)
    (s : SimState) : SimState :=
  let s0 := { s with current_market_time := some time }
  let r1 := notifyEngine bars s0
  if r1.2 then r1.1
  else
    let r2 := notifyStrategy strat r1.1
    if r2.2 then r2.1
    else notifyPortfolio bars r2.1

/-! ### The engine as a state machine (for the resting-order invariant) -/

/-- The operations the driver can apply to the order-matching engine:
order submission, cancellation, the per-bar matching pass, and the
same-bar immediate fill. -/
inductive EngOp where
  | submit (o : OrderEvent)
  | cancel (id : ℕ)
  | market (bars : BarsFn)
  | immediate (id : ℕ) (bars : BarsFn)

/-- Apply one operation, returning the new state, the fills it emitted and
whether an exception escaped to the driver. -/
def stepFull (s : EngineState) (op : EngOp) :
    EngineState × List FillEvent × Bool :=
  match op with
  | .submit o => (executeOrder s o, [], false)
  | .cancel id => (executeCancel s id, [], false)
  | .market bars => engineUpdate bars s
  | .immediate id bars => processImmediateOrder bars s id

/-- The state after one operation. -/
def step (s : EngineState) (op : EngOp) : EngineState := (stepFull s op).1

/-- States reachable from a freshly constructed handler by any sequence of
submit / cancel / market / immediate operations. -/
inductive Reach : EngineState → Prop where
  | init (slippage_bps part_fill_volume_pct : ℚ) :
      Reach (initEngine slippage_bps part_fill_volume_pct)
  | step (s : EngineState) (op : EngOp) : Reach s → Reach (step s op)

/-- Reachability when every submitted order is freshly constructed (its
`filled_quantity` still 0, as `OrderEvent.__init__` sets it) and has
positive quantity. -/
inductive ReachPos : EngineState → Prop where
  | init (slippage_bps part_fill_volume_pct : ℚ) :
      ReachPos (initEngine slippage_bps part_fill_volume_pct)
  | step (s : EngineState) (op : EngOp) : ReachPos s →
      (∀ o, op = .submit o → 0 < o.quantity ∧ o.filled_quantity = 0) →
      ReachPos (step s op)

/-- The resting-order invariant of the specification: every resting entry
still has quantity outstanding. -/
def OrdersInv (s : EngineState) : Prop :=
  ∀ p ∈ s.orders, p.2.filled_quantity < p.2.quantity

/-- Well-formedness of the resting-order dict: keys are distinct and never
exceed the id counter. -/
def EngineWF (s : EngineState) : Prop :=
  (s.orders.map Prod.fst).Nodup ∧ ∀ k ∈ s.orders.map Prod.fst, k ≤ s.order_id

/-! ### Dictionary lemmas -/

theorem dictFind_dictSet_self {κ α : Type} [DecidableEq κ]
    (l : List (κ × α)) (k : κ) (v : α) (h : (dictFind l k).isSome) :
    dictFind (dictSet l k v) k = some v := by
  induction l with
  | nil => simp [dictFind] at h
  | cons p t ih =>
    by_cases hk : p.1 = k
    · unfold dictFind dictSet
      rw [List.map_cons, if_pos hk, List.find?_cons_of_pos _ (by simp)]
      rfl
    · unfold dictFind at h
      rw [List.find?_cons_of_neg _ (by simpa using hk)] at h
      unfold dictFind dictSet
      rw [List.map_cons, if_neg hk,
        List.find?_cons_of_neg _ (by simpa using hk)]
      exact ih h

theorem dictFind_dictSet_ne {κ α : Type} [DecidableEq κ]
    (l : List (κ × α)) (k k' : κ) (v : α) (h : k' ≠ k) :
    dictFind (dictSet l k v) k' = dictFind l k' := by
  induction l with
  | nil => simp [dictFind, dictSet]
  | cons p t ih =>
    unfold dictFind dictSet at ih ⊢
    by_cases hk : p.1 = k
    · rw [List.map_cons, if_pos hk,
        List.find?_cons_of_neg _ (by simpa using fun hc : k = k' => h hc.symm),
        List.find?_cons_of_neg _ (by
          simp only [decide_eq_true_eq]
          exact fun hc => h (by rw [← hc, hk]))]
      exact ih
    · rw [List.map_cons, if_neg hk]
      by_cases hk' : p.1 = k'
      · rw [List.find?_cons_of_pos _ (by simpa using hk'),
          List.find?_cons_of_pos _ (by simpa using hk')]
      · rw [List.find?_cons_of_neg _ (by simpa using hk'),
          List.find?_cons_of_neg _ (by simpa using hk')]
        exact ih

theorem dictFind_dictInsert_self {κ α : Type} [DecidableEq κ]
    (l : List (κ × α)) (k : κ) (v : α) :
    dictFind (dictInsert l k v) k = some v := by
  unfold dictInsert
  by_cases h : (l.find? (fun p => decide (p.1 = k))).isSome
  · rw [if_pos h]
    exact dictFind_dictSet_self l k v (by
      unfold dictFind
      cases hf : l.find? (fun p => decide (p.1 = k)) with
      | none => rw [hf] at h; simp at h
      | some q => simp)
  · rw [if_neg h]
    induction l with
    | nil =>
      unfold dictFind
      rw [List.nil_append, List.find?_cons_of_pos _ (by simp)]
      rfl
    | cons p t ih =>
      by_cases hk : p.1 = k
      · exact absurd (by rw [List.find?_cons_of_pos _ (by simpa using hk)]; rfl) h
      · unfold dictFind at ih ⊢
        rw [List.cons_append,
          List.find?_cons_of_neg _ (by simpa using hk)]
        rw [List.find?_cons_of_neg _ (by simpa using hk)] at h
        exact ih h

/-! ### Common facts about emitted fills -/

/-- Every field of a market-order fill, by computation. -/
theorem fillMarketOrder_fields (s : EngineState) (id : ℕ) (o : OrderEvent)
    (bar : ℤ × Bar) (rem : ℤ) :
    (fillMarketOrder s id o bar rem).order_id = some id ∧
    (fillMarketOrder s id o bar rem).quantity =
      min rem (pyInt (bar.2.volume * s.part_fill_volume_pct)) ∧
    (fillMarketOrder s id o bar rem).commission = 0 ∧
    (fillMarketOrder s id o bar rem).part_fill =
      decide ((fillMarketOrder s id o bar rem).quantity < rem) ∧
    (fillMarketOrder s id o bar rem).fill_cost =
      applySlippage s bar.2.open_ o.direction *
        (fillMarketOrder s id o bar rem).quantity := by
  simp [fillMarketOrder, FillEvent.make]

theorem fillLimitOrder_spec (s : EngineState) (id : ℕ) (o : OrderEvent)
    (bar : ℤ × Bar) (rem : ℤ) (f : FillEvent)
    (h : fillLimitOrder s id o bar rem = .ok (some f)) :
    f.order_id = some id ∧
    f.quantity = min rem (pyInt (bar.2.volume * s.part_fill_volume_pct)) ∧
    f.commission = 0 ∧ f.part_fill = decide (f.quantity < rem) := by
  simp only [fillLimitOrder] at h
  repeat' split at h
  all_goals first
    | exact (Except.noConfusion h)
    | (injection h with h2; exact (Option.noConfusion h2))
    | (injection h with h2; injection h2 with h3; subst h3;
       simp [FillEvent.make, min_lt_iff])

theorem fillStopOrder_spec (s : EngineState) (id : ℕ) (o : OrderEvent)
    (bar : ℤ × Bar) (rem : ℤ) (f : FillEvent)
    (h : fillStopOrder s id o bar rem = .ok (some f)) :
    f.order_id = some id ∧
    f.quantity = min rem (pyInt (bar.2.volume * s.part_fill_volume_pct)) ∧
    f.commission = 0 ∧ f.part_fill = decide (f.quantity < rem) := by
  simp only [fillStopOrder] at h
  repeat' split at h
  all_goals first
    | exact (Except.noConfusion h)
    | (injection h with h2; exact (Option.noConfusion h2))
    | (injection h with h2; injection h2 with h3; subst h3;
       simp [FillEvent.make, min_lt_iff])

theorem fillStopLimitOrder_spec (s : EngineState) (id : ℕ) (o : OrderEvent)
    (bar : ℤ × Bar) (rem : ℤ) (f : FillEvent)
    (h : fillStopLimitOrder s id o bar rem = .ok (some f)) :
    f.order_id = some id ∧
    f.quantity = min rem (pyInt (bar.2.volume * s.part_fill_volume_pct)) ∧
    f.commission = 0 ∧ f.part_fill = decide (f.quantity < rem) := by
  simp only [fillStopLimitOrder] at h
  repeat' split at h
  all_goals first
    | exact (Except.noConfusion h)
    | (injection h with h2; exact (Option.noConfusion h2))
    | (injection h with h2; injection h2 with h3; subst h3;
       simp [FillEvent.make, min_lt_iff])

theorem fillTrailingStopOrder_spec (s : EngineState) (id : ℕ) (o : OrderEvent)
    (bar : ℤ × Bar) (rem : ℤ) (f : FillEvent)
    (h : fillTrailingStopOrder s id o bar rem = .ok (some f)) :
    f.order_id = some id ∧
    f.quantity = min rem (pyInt (bar.2.volume * s.part_fill_volume_pct)) ∧
    f.commission = 0 ∧ f.part_fill = decide (f.quantity < rem) := by
  simp only [fillTrailingStopOrder] at h
  repeat' split at h
  all_goals first
    | exact (Except.noConfusion h)
    | (injection h with h2; exact (Option.noConfusion h2))
    | (injection h with h2; injection h2 with h3; subst h3;
       simp [FillEvent.make, min_lt_iff])

/-- Every fill `_check_order` emits carries the id of its order, quantity
`min(remaining, max_fill)`, a zero (defaulted) commission, and the
corresponding partial-fill flag. -/
theorem checkOrder_fill_spec (s : EngineState) (id : ℕ) (o : OrderEvent)
    (bar : ℤ × Bar) (rem : ℤ) (f : FillEvent)
    (h : checkOrder s id o bar rem = .ok (some f)) :
    f.order_id = some id ∧
    f.quantity = min rem (pyInt (bar.2.volume * s.part_fill_volume_pct)) ∧
    f.commission = 0 ∧ f.part_fill = decide (f.quantity < rem) := by
  unfold checkOrder at h
  split_ifs at h
  · have : f = fillMarketOrder s id o bar rem := by simpa using h.symm
    subst this
    obtain ⟨h1, h2, h3, h4, _⟩ := fillMarketOrder_fields s id o bar rem
    exact ⟨h1, h2, h3, h4⟩
  · exact fillLimitOrder_spec s id o bar rem f h
  · exact fillStopOrder_spec s id o bar rem f h
  · exact fillStopLimitOrder_spec s id o bar rem f h
  · exact fillTrailingStopOrder_spec s id o bar rem f h
  · simp at h

/-- The emitted quantity never exceeds the outstanding quantity. -/
theorem checkOrder_fill_le (s : EngineState) (id : ℕ) (o : OrderEvent)
    (bar : ℤ × Bar) (rem : ℤ) (f : FillEvent)
    (h : checkOrder s id o bar rem = .ok (some f)) : f.quantity ≤ rem := by
  obtain ⟨-, h2, -, -⟩ := checkOrder_fill_spec s id o bar rem f h
  rw [h2]
  exact min_le_left _ _

/-! ### Claim C1 -/

/-- C1: for every Fill event with direction BUY or SELL processed by the
Portfolio ledger (`update_fill`), the cash balance afterwards equals the
balance before minus `sign(direction)·fill_cost` minus the fill's
commission, cumulative commission grows by exactly the fill's commission,
and the signed position of the fill's symbol changes by `+quantity` for
BUY and `-quantity` for SELL (sign = +1 for BUY, −1 for SELL). -/
theorem C1_fill_conservation (p : PortfolioState) (f : FillEvent)
    (hdir : f.direction = "BUY" ∨ f.direction = "SELL") (cur : ℤ)
    (hsym : dictFind p.current_positions f.symbol = some cur) :
    (updateFill p f).1.current_holdings.cash =
      p.current_holdings.cash - fillDirectionSign f.direction * f.fill_cost
        - f.commission ∧
    (updateFill p f).1.current_holdings.commission =
      p.current_holdings.commission + f.commission ∧
    dictFind (updateFill p f).1.current_positions f.symbol =
      some (cur + fillDirectionSign f.direction * f.quantity) ∧
    (f.direction = "BUY" → fillDirectionSign f.direction = 1) ∧
    (f.direction = "SELL" → fillDirectionSign f.direction = -1) := by
  have hup : updatePositionsFromFill p f = .ok
      { p with current_positions := (dictSet p.current_positions f.symbol
          (cur + fillDirectionSign f.direction * f.quantity)) } := by
    unfold updatePositionsFromFill
    rw [hsym]
  have hfind : dictFind (dictSet p.current_positions f.symbol
      (cur + fillDirectionSign f.direction * f.quantity)) f.symbol =
      some (cur + fillDirectionSign f.direction * f.quantity) :=
    dictFind_dictSet_self _ _ _ (by rw [hsym]; rfl)
  simp only [updateFill, hup]
  rcases htr : trackTradesFromFill (updateHoldingsFromFill
      { p with current_positions := (dictSet p.current_positions f.symbol
          (cur + fillDirectionSign f.direction * f.quantity)) } f) f with
    e | ⟨op, ct⟩ <;>
  · simp only [htr, updateHoldingsFromFill]
    refine ⟨by simp [sub_sub], by simp, by simpa using hfind,
      fun h => by simp [fillDirectionSign, h],
      fun h => by simp [fillDirectionSign, h]⟩

/-! ### Claim C4 -/

/-- C4 (code bug witness): every fill `_fill_market_order` builds — and
more generally every fill `_check_order` emits — is constructed without a
commission argument, so `FillEvent.__init__` defaults its commission to
zero; no pluggable commission calculator exists in `execution_handler.py`
(the `FixedCommissionCalculator` that `backtester.py` and `main.py` import
from it is undefined). -/
theorem C4_commission_defaulted_to_zero :
    (∀ s id o bar rem, (fillMarketOrder s id o bar rem).commission = 0) ∧
    (∀ s id o bar rem f, checkOrder s id o bar rem = .ok (some f) →
      f.commission = 0) := by
  constructor
  · intro s id o bar rem
    exact (fillMarketOrder_fields s id o bar rem).2.2.1
  · intro s id o bar rem f h
    exact (checkOrder_fill_spec s id o bar rem f h).2.2.1

def c4order : OrderEvent :=
  OrderEvent.make "AAPL" "MKT" 100 "BUY" none none none false

def c4bar : ℤ × Bar := (0, ⟨100, 101, 99, 100, 1000⟩)

/-- Witness for C4 at a concrete market order and bar. -/
theorem C4_commission_defaulted_to_zero_witness :
    checkOrder (initEngine 0 1) 1 c4order c4bar 100 =
      .ok (some (fillMarketOrder (initEngine 0 1) 1 c4order c4bar 100)) ∧
    (fillMarketOrder (initEngine 0 1) 1 c4order c4bar 100).commission = 0 :=
  ⟨by simp [checkOrder, c4order, OrderEvent.make],
   C4_commission_defaulted_to_zero.2 (initEngine 0 1) 1 c4order c4bar 100
     (fillMarketOrder (initEngine 0 1) 1 c4order c4bar 100)
     (by simp [checkOrder, c4order, OrderEvent.make])⟩

/-! ### Claim C8 -/

def c8order : OrderEvent :=
  OrderEvent.make "AAPL" "LMT" 100 "BUY" none none none false

/-- C8 counterexample: submitting a LMT order without a limit price is NOT
rejected — `execute_order` stores every ORDER event unconditionally, so the
resting set after the submission differs from the one before. -/
theorem C8_counterexample :
    (executeOrder (initEngine 0 1) c8order).orders ≠
      (initEngine 0 1).orders := by
  simp [executeOrder, initEngine, dictInsert]

/-- C8 (amended): submission performs no field validation.  A LMT order
without a limit price (direction BUY or SELL) is assigned the next id and
stored in the resting set — the resting set afterwards is the previous set
with the new entry inserted; the missing field only surfaces later, as a
`TypeError` raised when the order is evaluated against a bar. -/
theorem C8_no_validation_at_submission (s : EngineState) (o : OrderEvent)
    (htype : o.order_type = "LMT") (hlim : o.limit_price = none)
    (hdir : o.direction = "BUY" ∨ o.direction = "SELL") :
    (executeOrder s o).orders = dictInsert s.orders (s.order_id + 1) o ∧
    dictFind (executeOrder s o).orders (s.order_id + 1) = some o ∧
    (∀ bar rem, checkOrder s (s.order_id + 1) o bar rem =
      .error "TypeError") := by
  refine ⟨rfl, dictFind_dictInsert_self _ _ _, ?_⟩
  intro bar rem
  rcases hdir with hdir | hdir <;>
    simp [checkOrder, fillLimitOrder, htype, hlim, hdir]

/-- Witness for C8 at a concrete LMT order with no limit price. -/
theorem C8_no_validation_at_submission_witness :
    c8order.order_type = "LMT" ∧ c8order.limit_price = none ∧
    ((executeOrder (initEngine 0 1) c8order).orders =
        dictInsert (initEngine 0 1).orders ((initEngine 0 1).order_id + 1)
          c8order ∧
      dictFind (executeOrder (initEngine 0 1) c8order).orders
        ((initEngine 0 1).order_id + 1) = some c8order ∧
      (∀ bar rem, checkOrder (initEngine 0 1)
        ((initEngine 0 1).order_id + 1) c8order bar rem =
          .error "TypeError")) :=
  ⟨rfl, rfl, C8_no_validation_at_submission _ _ rfl rfl (Or.inl rfl)⟩

/-! ### Claim C5 -/

/-- C5: a resting LMT BUY order evaluated against a bar produces a Fill iff
`bar.low ≤ limit_price`, and its fill price before slippage is
`min(bar.open, limit_price)` — the fill's cost is the slippage-adjusted
`min(open, limit)` times the fill quantity.  The claim's concrete instance
(`open = 100, low = 99`) is the witness below. -/
theorem C5_limit_buy_fill (s : EngineState) (id : ℕ) (o : OrderEvent)
    (bar : ℤ × Bar) (rem : ℤ) (L : ℚ)
    (hdir : o.direction = "BUY") (hlim : o.limit_price = some L) :
    ((∃ f, fillLimitOrder s id o bar rem = .ok (some f)) ↔ bar.2.low ≤ L) ∧
    (∀ f, fillLimitOrder s id o bar rem = .ok (some f) →
      f.fill_cost = applySlippage s (min bar.2.open_ L) "BUY" * f.quantity) := by
  by_cases hc : bar.2.low ≤ L
  · constructor
    · simp [fillLimitOrder, hdir, hlim, hc]
    · intro f hf
      simp only [fillLimitOrder, hdir, hlim, if_pos hc] at hf
      simp only [reduceIte] at hf
      injection hf with h2
      injection h2 with h3
      subst h3
      simp [FillEvent.make, hdir]
  · constructor
    · simp [fillLimitOrder, hdir, hlim, hc]
    · intro f hf
      simp only [fillLimitOrder, hdir, hlim, if_neg hc] at hf
      simp only [reduceIte] at hf
      exact absurd hf (by simp)

def c5order : OrderEvent :=
  OrderEvent.make "AAPL" "LMT" 100 "BUY" (some (199 / 2)) none none false

def c5bar : ℤ × Bar := (0, ⟨100, 101, 99, 100, 1000⟩)

/-- Witness for C5 on the claim's bar (`open = 100, low = 99`) with a limit
of 99.5. -/
theorem C5_limit_buy_fill_witness :
    c5order.direction = "BUY" ∧ c5order.limit_price = some (199 / 2) ∧
    (((∃ f, fillLimitOrder (initEngine 0 1) 1 c5order c5bar 100 =
        .ok (some f)) ↔ c5bar.2.low ≤ 199 / 2) ∧
     (∀ f, fillLimitOrder (initEngine 0 1) 1 c5order c5bar 100 =
        .ok (some f) →
      f.fill_cost = applySlippage (initEngine 0 1)
        (min c5bar.2.open_ (199 / 2)) "BUY" * f.quantity)) :=
  ⟨rfl, rfl, C5_limit_buy_fill (initEngine 0 1) 1 c5order c5bar 100
    (199 / 2) rfl rfl⟩

/-! ### Claim C6 -/

/-- C6: a resting STP BUY order produces a Fill iff `bar.high ≥ stop`, and
the fill price before slippage is `bar.open` when `open ≥ stop`, else (the
open being below the stop while the high touched it) the "cheat" price
`bar.high`; STP SELL is the mirror with `bar.low` and the stop.  The
clause "else `stop_price`" of the claim is vacuous: whenever a fill is
produced with `open < stop` the high has reached the stop, so the cheat
price overwrites the initial `stop` assignment. -/
theorem C6_stop_fill (s : EngineState) (id : ℕ) (o : OrderEvent)
    (bar : ℤ × Bar) (rem : ℤ) (P : ℚ) :
    (o.direction = "BUY" → o.stop_price = some P →
      (((∃ f, fillStopOrder s id o bar rem = .ok (some f)) ↔
          P ≤ bar.2.high) ∧
       (∀ f, fillStopOrder s id o bar rem = .ok (some f) →
         f.fill_cost = applySlippage s
           (if P ≤ bar.2.open_ then bar.2.open_ else bar.2.high) "BUY" *
             f.quantity))) ∧
    (o.direction = "SELL" → o.stop_price = some P →
      (((∃ f, fillStopOrder s id o bar rem = .ok (some f)) ↔
          bar.2.low ≤ P) ∧
       (∀ f, fillStopOrder s id o bar rem = .ok (some f) →
         f.fill_cost = applySlippage s
           (if bar.2.open_ ≤ P then bar.2.open_ else bar.2.low) "SELL" *
             f.quantity))) := by
  constructor
  · intro hdir hstop
    by_cases hc : P ≤ bar.2.high
    · constructor
      · simp [fillStopOrder, hdir, hstop, hc]
      · intro f hf
        simp only [fillStopOrder, hdir, hstop, ge_iff_le, if_pos hc] at hf
        simp only [reduceIte] at hf
        injection hf with h2
        injection h2 with h3
        subst h3
        by_cases hopen : P ≤ bar.2.open_
        · have hno : ¬(P ≤ bar.2.high ∧ bar.2.open_ < P) := by
            rintro ⟨-, hlt⟩; exact absurd hopen (not_le.mpr hlt)
          simp [FillEvent.make, hdir, if_pos hopen, if_neg hno, hopen]
        · have hyes : P ≤ bar.2.high ∧ bar.2.open_ < P :=
            ⟨hc, not_le.mp hopen⟩
          simp [FillEvent.make, hdir, if_pos hyes, hopen]
    · constructor
      · simp [fillStopOrder, hdir, hstop, hc]
      · intro f hf
        simp only [fillStopOrder, hdir, hstop, ge_iff_le, if_neg hc] at hf
        simp only [reduceIte] at hf
        exact absurd hf (by simp)
  · intro hdir hstop
    have hnb : ¬ (o.direction = "BUY") := by rw [hdir]; decide
    by_cases hc : bar.2.low ≤ P
    · constructor
      · simp [fillStopOrder, hdir, hnb, hstop, hc]
      · intro f hf
        simp only [fillStopOrder, hdir, hnb, hstop, ge_iff_le,
          if_pos hc] at hf
        simp only [reduceIte] at hf
        injection hf with h2
        injection h2 with h3
        subst h3
        by_cases hopen : bar.2.open_ ≤ P
        · have hno : ¬(bar.2.low ≤ P ∧ P < bar.2.open_) := by
            rintro ⟨-, hlt⟩; exact absurd hopen (not_le.mpr hlt)
          simp [FillEvent.make, hdir, if_pos hopen, if_neg hno, hopen]
        · have hyes : bar.2.low ≤ P ∧ P < bar.2.open_ :=
            ⟨hc, not_le.mp hopen⟩
          simp [FillEvent.make, hdir, if_pos hyes, hopen]
    · constructor
      · simp [fillStopOrder, hdir, hnb, hstop, hc]
      · intro f hf
        simp only [fillStopOrder, hdir, hnb, hstop, ge_iff_le,
          if_neg hc] at hf
        simp only [reduceIte] at hf
        exact absurd hf (by simp)

def c6order : OrderEvent :=
  OrderEvent.make "AAPL" "STP" 100 "BUY" none (some (201 / 2)) none false

/-- Witness for C6: a STP BUY at 100.5 against a bar with
`open = 100 < stop ≤ high = 101` — the cheat-fill case. -/
theorem C6_stop_fill_witness :
    c6order.direction = "BUY" ∧ c6order.stop_price = some (201 / 2) ∧
    (((∃ f, fillStopOrder (initEngine 0 1) 1 c6order c5bar 100 =
        .ok (some f)) ↔ (201 / 2 : ℚ) ≤ c5bar.2.high) ∧
     (∀ f, fillStopOrder (initEngine 0 1) 1 c6order c5bar 100 =
        .ok (some f) →
      f.fill_cost = applySlippage (initEngine 0 1)
        (if (201 / 2 : ℚ) ≤ c5bar.2.open_ then c5bar.2.open_
          else c5bar.2.high) "BUY" * f.quantity)) :=
  ⟨rfl, rfl,
   (C6_stop_fill (initEngine 0 1) 1 c6order c5bar 100 (201 / 2)).1 rfl rfl⟩

/-! ### Claim C10 -/

/-- C10: a resting MKT order evaluated against a bar whose
`volume · participation_pct` truncates to 0 still produces a Fill of
quantity 0 flagged as a partial fill, and the order stays resting with its
`filled_quantity` unchanged; on a state whose resting set is exactly that
order, the matching pass returns the state unchanged together with the
zero-quantity fill. -/
theorem C10_zero_liquidity_cap (bars : BarsFn) (s : EngineState) (id : ℕ)
    (o : OrderEvent) (hmkt : o.order_type = "MKT")
    (hrem : 0 < o.quantity - o.filled_quantity)
    (hcap : pyInt ((bars o.symbol).2.volume * s.part_fill_volume_pct) = 0) :
    ∃ f, entryOutcome bars s id o = (some o, some f, false) ∧
      f.quantity = 0 ∧ f.part_fill = true ∧
      (s.orders = [(id, o)] → engineUpdate bars s = (s, [f], false)) := by
  have htr : trailUpdate o (bars o.symbol) = o := by
    simp [trailUpdate, hmkt]
  have hchk : checkOrder s id o (bars o.symbol)
      (o.quantity - o.filled_quantity) =
      .ok (some (fillMarketOrder s id o (bars o.symbol)
        (o.quantity - o.filled_quantity))) := by
    simp [checkOrder, hmkt]
  have hq : (fillMarketOrder s id o (bars o.symbol)
      (o.quantity - o.filled_quantity)).quantity = 0 := by
    rw [(fillMarketOrder_fields s id o (bars o.symbol)
      (o.quantity - o.filled_quantity)).2.1, hcap]
    exact min_eq_right (le_of_lt hrem)
  have hpf : (fillMarketOrder s id o (bars o.symbol)
      (o.quantity - o.filled_quantity)).part_fill = true := by
    rw [(fillMarketOrder_fields s id o (bars o.symbol)
      (o.quantity - o.filled_quantity)).2.2.2.1, hq]
    simpa using hrem
  have hout : entryOutcome bars s id o = (some o,
      some (fillMarketOrder s id o (bars o.symbol)
        (o.quantity - o.filled_quantity)), false) := by
    simp only [entryOutcome]
    rw [htr]
    rw [if_neg (by omega)]
    rw [hchk]
    simp only [hq, add_zero]
    rw [if_neg (by omega)]
  refine ⟨fillMarketOrder s id o (bars o.symbol)
    (o.quantity - o.filled_quantity), hout, hq, hpf, ?_⟩
  intro horders
  unfold engineUpdate
  rw [horders]
  simp only [List.foldl_cons, List.foldl_nil, engineUpdateStep]
  rw [hout]
  simp only [applyOutcome]
  rw [show dictSet s.orders id o = s.orders by
    rw [horders]; simp [dictSet]]
  rfl

def c10order : OrderEvent :=
  OrderEvent.make "AAPL" "MKT" 100 "BUY" none none none false

def c10bars : BarsFn := fun _ => (0, ⟨100, 101, 99, 100, 5⟩)

def c10s : EngineState :=
  { orders := [(1, c10order)], order_id := 1, slippage_bps := 0,
    part_fill_volume_pct := 1 / 10 }

/-- Witness for C10: a bar of volume 5 under a 10% participation cap
truncates to 0 shares of liquidity. -/
theorem C10_zero_liquidity_cap_witness :
    c10order.order_type = "MKT" ∧
    0 < c10order.quantity - c10order.filled_quantity ∧
    pyInt ((c10bars c10order.symbol).2.volume * c10s.part_fill_volume_pct)
      = 0 ∧
    (∃ f, entryOutcome c10bars c10s 1 c10order = (some c10order, some f,
        false) ∧
      f.quantity = 0 ∧ f.part_fill = true ∧
      (c10s.orders = [(1, c10order)] →
        engineUpdate c10bars c10s = (c10s, [f], false))) :=
  ⟨rfl, by decide, by norm_num [c10bars, c10s, pyInt],
   C10_zero_liquidity_cap c10bars c10s 1 c10order rfl (by decide)
     (by norm_num [c10bars, c10s, pyInt])⟩

/-! ### Claim C2 -/

/-- Evaluating the matching pass on a state holding exactly one MKT order:
the order fills `min(remaining, max_fill)` shares at the bar open and is
removed exactly when the remaining quantity fits under the liquidity
cap. -/
theorem engineUpdate_single_mkt (bars : BarsFn) (s : EngineState) (id : ℕ)
    (o : OrderEvent) (horders : s.orders = [(id, o)])
    (hmkt : o.order_type = "MKT")
    (hrem : 0 < o.quantity - o.filled_quantity) :
    engineUpdate bars s =
      if o.quantity - o.filled_quantity ≤
          pyInt ((bars o.symbol).2.volume * s.part_fill_volume_pct) then
        ({ s with orders := [] },
         [fillMarketOrder s id o (bars o.symbol)
           (o.quantity - o.filled_quantity)], false)
      else
        ({ s with orders := [(id, { o with filled_quantity :=
            (o.filled_quantity + pyInt ((bars o.symbol).2.volume *
              s.part_fill_volume_pct)) })] },
         [fillMarketOrder s id o (bars o.symbol)
           (o.quantity - o.filled_quantity)], false) := by
  have htr : trailUpdate o (bars o.symbol) = o := by
    simp [trailUpdate, hmkt]
  have hchk : checkOrder s id o (bars o.symbol)
      (o.quantity - o.filled_quantity) =
      .ok (some (fillMarketOrder s id o (bars o.symbol)
        (o.quantity - o.filled_quantity))) := by
    simp [checkOrder, hmkt]
  have hq : (fillMarketOrder s id o (bars o.symbol)
      (o.quantity - o.filled_quantity)).quantity =
      min (o.quantity - o.filled_quantity)
        (pyInt ((bars o.symbol).2.volume * s.part_fill_volume_pct)) :=
    (fillMarketOrder_fields s id o (bars o.symbol)
      (o.quantity - o.filled_quantity)).2.1
  have hout : entryOutcome bars s id o =
      (if o.quantity - o.filled_quantity ≤
          pyInt ((bars o.symbol).2.volume * s.part_fill_volume_pct) then
        (none, some (fillMarketOrder s id o (bars o.symbol)
          (o.quantity - o.filled_quantity)), false)
      else
        (some { o with filled_quantity := (o.filled_quantity +
            pyInt ((bars o.symbol).2.volume * s.part_fill_volume_pct)) },
         some (fillMarketOrder s id o (bars o.symbol)
          (o.quantity - o.filled_quantity)), false)) := by
    simp only [entryOutcome]
    rw [htr]
    rw [if_neg (by omega)]
    rw [hchk]
    simp only [hq]
    by_cases hfull : o.quantity - o.filled_quantity ≤
        pyInt ((bars o.symbol).2.volume * s.part_fill_volume_pct)
    · rw [if_pos hfull]
      have : min (o.quantity - o.filled_quantity)
          (pyInt ((bars o.symbol).2.volume * s.part_fill_volume_pct)) =
          o.quantity - o.filled_quantity := min_eq_left hfull
      rw [this]
      rw [if_pos (by omega)]
    · rw [if_neg hfull]
      have : min (o.quantity - o.filled_quantity)
          (pyInt ((bars o.symbol).2.volume * s.part_fill_volume_pct)) =
          pyInt ((bars o.symbol).2.volume * s.part_fill_volume_pct) :=
        min_eq_right (by omega)
      rw [this]
      rw [if_neg (by omega)]
  unfold engineUpdate
  rw [horders]
  simp only [List.foldl_cons, List.foldl_nil, engineUpdateStep]
  rw [hout]
  by_cases hfull : o.quantity - o.filled_quantity ≤
      pyInt ((bars o.symbol).2.volume * s.part_fill_volume_pct)
  · rw [if_pos hfull, if_pos hfull]
    simp only [applyOutcome]
    rw [show dictErase s.orders id = [] by
      rw [horders]; simp [dictErase]]
    rfl
  · rw [if_neg hfull, if_neg hfull]
    simp only [applyOutcome]
    rw [show dictSet s.orders id { o with filled_quantity :=
        (o.filled_quantity + pyInt ((bars o.symbol).2.volume *
          s.part_fill_volume_pct)) } = [(id, { o with filled_quantity :=
        (o.filled_quantity + pyInt ((bars o.symbol).2.volume *
          s.part_fill_volume_pct)) })] by
      rw [horders]; simp [dictSet]]
    rfl

def c2order : OrderEvent :=
  OrderEvent.make "AAPL" "MKT" 50000 "BUY" none none none false

def c2bars (v : ℚ) : BarsFn := fun _ => (0, ⟨100, 101, 99, 100, v⟩)

def c2s0 : EngineState := executeOrder (initEngine 0 (1 / 10)) c2order

def c2r1 : EngineState × List FillEvent × Bool :=
  engineUpdate (c2bars 100000) c2s0

def c2r2 : EngineState × List FillEvent × Bool :=
  engineUpdate (c2bars 120000) c2r1.1

def c2r3 : EngineState × List FillEvent × Bool :=
  engineUpdate (c2bars 150000) c2r2.1

def c2r4 : EngineState × List FillEvent × Bool :=
  engineUpdate (c2bars 180000) c2r3.1

def c2ord (k : ℤ) : OrderEvent := { c2order with filled_quantity := k }

def c2st (k : ℤ) : EngineState := { c2s0 with orders := [(1, c2ord k)] }
def c2f1 : FillEvent :=
  fillMarketOrder c2s0 1 c2order (c2bars 100000 "AAPL") 50000

def c2f2 : FillEvent :=
  fillMarketOrder (c2st 10000) 1 (c2ord 10000) (c2bars 120000 "AAPL") 40000

def c2f3 : FillEvent :=
  fillMarketOrder (c2st 22000) 1 (c2ord 22000) (c2bars 150000 "AAPL") 28000

def c2f4 : FillEvent :=
  fillMarketOrder (c2st 37000) 1 (c2ord 37000) (c2bars 180000 "AAPL") 13000

/-- C2: each market-order fill quantity equals
`min(remaining, floor(volume · participation_pct))`; and the concrete
scenario — a 50,000-share MKT BUY matched against four bars of volumes
100000, 120000, 150000, 180000 under a 10% participation cap — produces
exactly four fills of 10000, 12000, 15000, 13000 shares, the first three
partial and the fourth not, with the order removed from the resting set
after the fourth bar. -/
theorem C2_partial_fill_accumulation :
    (∀ s id o bar rem, (fillMarketOrder s id o bar rem).quantity =
      min rem (pyInt (bar.2.volume * s.part_fill_volume_pct))) ∧
    c2r1.2.1.map (fun f => (f.quantity, f.part_fill)) = [(10000, true)] ∧
    c2r2.2.1.map (fun f => (f.quantity, f.part_fill)) = [(12000, true)] ∧
    c2r3.2.1.map (fun f => (f.quantity, f.part_fill)) = [(15000, true)] ∧
    c2r4.2.1.map (fun f => (f.quantity, f.part_fill)) = [(13000, false)] ∧
    c2r4.1.orders = [] := by
  have h1 : c2r1 = (c2st 10000, [c2f1], false) := by
    simp only [c2r1]
    rw [engineUpdate_single_mkt (c2bars 100000) c2s0 1 c2order rfl rfl
      (by decide)]
    rw [if_neg (by norm_num [pyInt, c2bars, c2order, OrderEvent.make,
      c2s0, executeOrder, initEngine])]
    norm_num [c2st, c2ord, c2f1, c2order, OrderEvent.make, c2bars, pyInt,
      c2s0, executeOrder, initEngine, dictInsert, dictSet, List.find?]
  have h2 : c2r2 = (c2st 22000, [c2f2], false) := by
    simp only [c2r2, h1]
    rw [engineUpdate_single_mkt (c2bars 120000) (c2st 10000) 1
      (c2ord 10000) rfl rfl (by decide)]
    rw [if_neg (by norm_num [pyInt, c2bars, c2ord, c2order,
      OrderEvent.make, c2st, c2s0, executeOrder, initEngine])]
    norm_num [c2st, c2ord, c2f2, c2order, OrderEvent.make, c2bars, pyInt,
      c2s0, executeOrder, initEngine, dictInsert, dictSet, List.find?]
  have h3 : c2r3 = (c2st 37000, [c2f3], false) := by
    simp only [c2r3, h2]
    rw [engineUpdate_single_mkt (c2bars 150000) (c2st 22000) 1
      (c2ord 22000) rfl rfl (by decide)]
    rw [if_neg (by norm_num [pyInt, c2bars, c2ord, c2order,
      OrderEvent.make, c2st, c2s0, executeOrder, initEngine])]
    norm_num [c2st, c2ord, c2f3, c2order, OrderEvent.make, c2bars, pyInt,
      c2s0, executeOrder, initEngine, dictInsert, dictSet, List.find?]
  have h4 : c2r4 = ({ c2st 37000 with orders := [] }, [c2f4], false) := by
    simp only [c2r4, h3]
    rw [engineUpdate_single_mkt (c2bars 180000) (c2st 37000) 1
      (c2ord 37000) rfl rfl (by decide)]
    rw [if_pos (by norm_num [pyInt, c2bars, c2ord, c2order,
      OrderEvent.make, c2st, c2s0, executeOrder, initEngine])]
    norm_num [c2st, c2ord, c2f4, c2order, OrderEvent.make, c2bars, pyInt,
      c2s0, executeOrder, initEngine, dictInsert, dictSet, List.find?]
  refine ⟨fun s id o bar rem =>
    (fillMarketOrder_fields s id o bar rem).2.1, ?_, ?_, ?_, ?_, ?_⟩
  · rw [h1]
    norm_num [c2f1, fillMarketOrder, FillEvent.make, applySlippage,
      c2s0, executeOrder, initEngine, c2bars, c2order, OrderEvent.make,
      pyInt, min_def]
  · rw [h2]
    norm_num [c2f2, fillMarketOrder, FillEvent.make, applySlippage,
      c2st, c2ord, c2s0, executeOrder, initEngine, c2bars, c2order,
      OrderEvent.make, pyInt, min_def]
  · rw [h3]
    norm_num [c2f3, fillMarketOrder, FillEvent.make, applySlippage,
      c2st, c2ord, c2s0, executeOrder, initEngine, c2bars, c2order,
      OrderEvent.make, pyInt, min_def]
  · rw [h4]
    norm_num [c2f4, fillMarketOrder, FillEvent.make, applySlippage,
      c2st, c2ord, c2s0, executeOrder, initEngine, c2bars, c2order,
      OrderEvent.make, pyInt, min_def]
  · rw [h4]

/-! ### Claim C7 -/

/-- Closing against an opposite-direction lot when the fill quantity
strictly exceeds the lot quantity: one closed trade for the full lot, the
lot deleted, and a reversal lot opened with the excess, its entry
commission being the fill's commission minus the share apportioned to the
closed portion. -/
theorem closeAgainstLot_reversal (open_pos : List (String × OpenPos))
    (closed : List ClosedTrade) (sym : String) (lot : OpenPos) (fq : ℤ)
    (fp : ℚ) (ft : ℤ) (fc : ℚ) (lotdir newdir : String)
    (hq0 : 0 < lot.quantity) (hlt : lot.quantity < fq) :
    closeAgainstLot open_pos closed sym lot fq fp ft fc lotdir newdir =
      .ok (dictInsert (dictErase (dictSet open_pos sym
          { lot with
            quantity := 0,
            total_entry_commission := (lot.total_entry_commission -
              lot.total_entry_commission / lot.quantity * lot.quantity) })
          sym) sym
          { entry_time := ft, entry_price := fp,
            quantity := fq - lot.quantity, direction := newdir,
            total_entry_commission := fc - fc / fq * lot.quantity },
        closed ++ [createClosedTrade sym lot.entry_time ft lot.entry_price
          fp lot.quantity lotdir
          (lot.total_entry_commission / lot.quantity * lot.quantity) fc]) := by
  simp only [closeAgainstLot]
  rw [if_neg (show ¬ lot.quantity = 0 by omega)]
  rw [min_eq_right (le_of_lt hlt)]
  simp only [sub_self]
  rw [if_pos (le_refl (0 : ℤ))]
  rw [if_pos (show (0 : ℤ) < fq - lot.quantity by omega)]

/-- C7: holding an open LONG lot of quantity `q` and processing a SELL
fill of quantity `f > q` appends exactly one closed trade of direction
LONG and quantity `q`, deletes the old lot, and opens a SHORT lot of
quantity `f − q` at the fill price whose entry commission is the fill's
commission minus `(commission / f) · q`; symmetrically for a SHORT lot
and a BUY fill. -/
theorem C7_reversal :
    (∀ (p : PortfolioState) (f : FillEvent) (lot : OpenPos),
      dictFind p.open_positions_details f.symbol = some lot →
      lot.direction = "LONG" → f.direction = "SELL" →
      0 < lot.quantity → lot.quantity < f.quantity →
      ∃ op ct, trackTradesFromFill p f = .ok (op, ct) ∧
        (∃ t, ct = p.closed_trades ++ [t] ∧ t.direction = "LONG" ∧
          t.quantity = lot.quantity) ∧
        dictFind op f.symbol = some
          { entry_time := f.timeindex,
            entry_price := (f.fill_cost / f.quantity),
            quantity := (f.quantity - lot.quantity), direction := "SHORT",
            total_entry_commission :=
              (f.commission - f.commission / f.quantity * lot.quantity) }) ∧
    (∀ (p : PortfolioState) (f : FillEvent) (lot : OpenPos),
      dictFind p.open_positions_details f.symbol = some lot →
      lot.direction = "SHORT" → f.direction = "BUY" →
      0 < lot.quantity → lot.quantity < f.quantity →
      ∃ op ct, trackTradesFromFill p f = .ok (op, ct) ∧
        (∃ t, ct = p.closed_trades ++ [t] ∧ t.direction = "SHORT" ∧
          t.quantity = lot.quantity) ∧
        dictFind op f.symbol = some
          { entry_time := f.timeindex,
            entry_price := (f.fill_cost / f.quantity),
            quantity := (f.quantity - lot.quantity), direction := "LONG",
            total_entry_commission :=
              (f.commission - f.commission / f.quantity * lot.quantity) }) := by
  constructor
  · intro p f lot hfind hlot hdir hq0 hlt
    have hfq : f.quantity ≠ 0 := by omega
    simp only [trackTradesFromFill, hdir, hfind, hlot, ne_eq, hfq,
      not_false_eq_true, if_true, String.reduceEq, if_false,
      Bool.false_eq_true, ite_false, ite_true, reduceIte]
    rw [closeAgainstLot_reversal p.open_positions_details p.closed_trades
      f.symbol lot f.quantity (f.fill_cost / f.quantity) f.timeindex
      f.commission "LONG" "SHORT" hq0 hlt]
    refine ⟨_, _, rfl, ⟨_, rfl, ?_, ?_⟩, ?_⟩
    · simp [createClosedTrade]
    · simp [createClosedTrade]
    · exact dictFind_dictInsert_self _ _ _
  · intro p f lot hfind hlot hdir hq0 hlt
    have hfq : f.quantity ≠ 0 := by omega
    simp only [trackTradesFromFill, hdir, hfind, hlot, ne_eq, hfq,
      not_false_eq_true, if_true, String.reduceEq, if_false,
      Bool.false_eq_true, ite_false, ite_true, reduceIte]
    rw [closeAgainstLot_reversal p.open_positions_details p.closed_trades
      f.symbol lot f.quantity (f.fill_cost / f.quantity) f.timeindex
      f.commission "SHORT" "LONG" hq0 hlt]
    refine ⟨_, _, rfl, ⟨_, rfl, ?_, ?_⟩, ?_⟩
    · simp [createClosedTrade]
    · simp [createClosedTrade]
    · exact dictFind_dictInsert_self _ _ _

def c7lot : OpenPos :=
  { entry_time := 0, entry_price := 100, quantity := 50,
    direction := "LONG", total_entry_commission := 1 }

def c7port : PortfolioState :=
  { initPortfolio ["AAPL"] 0 100000 with
    open_positions_details := [("AAPL", c7lot)] }

def c7fill : FillEvent :=
  FillEvent.make 86400 "AAPL" "ARCA" 100 "SELL" 10050 (some 2) (some 1) false

/-- Witness for C7: the claim's instance — 50 LONG, a 100-share SELL
fill. -/
theorem C7_reversal_witness :
    dictFind c7port.open_positions_details c7fill.symbol = some c7lot ∧
    c7lot.direction = "LONG" ∧ c7fill.direction = "SELL" ∧
    0 < c7lot.quantity ∧ c7lot.quantity < c7fill.quantity ∧
    (∃ op ct, trackTradesFromFill c7port c7fill = .ok (op, ct) ∧
      (∃ t, ct = c7port.closed_trades ++ [t] ∧ t.direction = "LONG" ∧
        t.quantity = c7lot.quantity) ∧
      dictFind op c7fill.symbol = some
        { entry_time := c7fill.timeindex,
          entry_price := (c7fill.fill_cost / c7fill.quantity),
          quantity := (c7fill.quantity - c7lot.quantity),
          direction := "SHORT",
          total_entry_commission := (c7fill.commission -
            c7fill.commission / c7fill.quantity * c7lot.quantity) }) :=
  ⟨rfl, rfl, rfl, by decide, by decide,
   C7_reversal.1 c7port c7fill c7lot rfl rfl rfl (by decide) (by decide)⟩

/-! ### Claim C3 -/

/-- C3 (amended): while handling a Market event the driver notifies the
order-matching engine first; the strategy runs only after (and if) the
matching pass completed without an exception; the portfolio snapshot is
appended last, only after both — never before that bar's orders are
matched and never before the strategy is invoked.  An exception escaping
the matching pass (caught by the driver's per-event handler) ends the
event's dispatch with only the engine notified; one escaping the
strategy leaves the snapshot unappended. -/
theorem C3_market_dispatch_order (bars : BarsFn)
    (strat : SimState → List SignalEvent × Bool) (time : ℤ)
    (s : SimState) :
    ((engineUpdate bars s.engine).2.2 = false →
      (∀ st, (strat st).2 = false) →
      (handleMarket bars strat time s).log =
        s.log ++ [Component.engine, Component.strategy,
          Component.portfolio]) ∧
    ((engineUpdate bars s.engine).2.2 = true →
      (handleMarket bars strat time s).log =
        s.log ++ [Component.engine]) ∧
    ((engineUpdate bars s.engine).2.2 = false →
      (∀ st, (strat st).2 = true) →
      (handleMarket bars strat time s).log =
        s.log ++ [Component.engine, Component.strategy]) := by
  refine ⟨?_, ?_, ?_⟩
  · intro heng hstrat
    simp [handleMarket, notifyEngine, notifyStrategy, notifyPortfolio,
      heng, hstrat]
  · intro heng
    simp [handleMarket, notifyEngine, heng]
  · intro heng hstrat
    simp [handleMarket, notifyEngine, notifyStrategy, heng, hstrat]

def c3bars : BarsFn := fun _ => (0, ⟨100, 101, 99, 100, 1000⟩)

def c3state : SimState :=
  { engine := initEngine 0 1,
    portfolio := initPortfolio ["AAPL"] 0 100000,
    pendingFills := [], pendingSignals := [],
    current_market_time := none, log := [] }

/-- C3 counterexample: on a concrete state whose Market handling raises
no exception, the dispatch sequence is engine, strategy, portfolio — it
is not the claimed sequence engine, portfolio, strategy, so the snapshot
is not appended before the strategy runs. -/
theorem C3_counterexample :
    (handleMarket c3bars (fun _ => ([], false)) 0 c3state).log =
      [Component.engine, Component.strategy, Component.portfolio] ∧
    (handleMarket c3bars (fun _ => ([], false)) 0 c3state).log ≠
      [Component.engine, Component.portfolio, Component.strategy] := by
  have h : (handleMarket c3bars (fun _ => ([], false)) 0 c3state).log =
      [Component.engine, Component.strategy, Component.portfolio] := by
    simp [handleMarket, notifyEngine, notifyStrategy, notifyPortfolio,
      c3state, engineUpdate, initEngine]
  exact ⟨h, by rw [h]; decide⟩

/-- Witness for C3 at a concrete state and strategy where no exception
escapes. -/
theorem C3_market_dispatch_order_witness :
    (engineUpdate c3bars c3state.engine).2.2 = false ∧
    (∀ st, ((fun _ => ([], false) :
      SimState → List SignalEvent × Bool) st).2 = false) ∧
    (handleMarket c3bars (fun _ => ([], false)) 0 c3state).log =
      c3state.log ++ [Component.engine, Component.strategy,
        Component.portfolio] :=
  ⟨rfl, fun _ => rfl,
   (C3_market_dispatch_order c3bars (fun _ => ([], false)) 0 c3state).1
     rfl (fun _ => rfl)⟩

def c1fill : FillEvent :=
  FillEvent.make 0 "AAPL" "ARCA" 10 "BUY" 1000 (some 2) (some 1) false

/-- Witness for C1: a BUY fill against a fresh single-symbol portfolio. -/
theorem C1_fill_conservation_witness :
    (c1fill.direction = "BUY" ∨ c1fill.direction = "SELL") ∧
    dictFind (initPortfolio ["AAPL"] 0 100000).current_positions
      c1fill.symbol = some 0 ∧
    ((updateFill (initPortfolio ["AAPL"] 0 100000) c1fill).1.current_holdings.cash =
      (initPortfolio ["AAPL"] 0 100000).current_holdings.cash -
        fillDirectionSign c1fill.direction * c1fill.fill_cost -
        c1fill.commission ∧
    (updateFill (initPortfolio ["AAPL"] 0 100000) c1fill).1.current_holdings.commission =
      (initPortfolio ["AAPL"] 0 100000).current_holdings.commission +
        c1fill.commission ∧
    dictFind (updateFill (initPortfolio ["AAPL"] 0 100000) c1fill).1.current_positions
        c1fill.symbol =
      some (0 + fillDirectionSign c1fill.direction * c1fill.quantity) ∧
    (c1fill.direction = "BUY" → fillDirectionSign c1fill.direction = 1) ∧
    (c1fill.direction = "SELL" → fillDirectionSign c1fill.direction = -1)) :=
  ⟨Or.inl rfl, rfl,
   C1_fill_conservation (initPortfolio ["AAPL"] 0 100000) c1fill
     (Or.inl rfl) 0 rfl⟩

/-! ### Claim C9: auxiliary lemmas -/

theorem trailUpdate_quantity (o : OrderEvent) (bar : ℤ × Bar) :
    (trailUpdate o bar).quantity = o.quantity := by
  unfold trailUpdate; split <;> rfl

theorem trailUpdate_filled (o : OrderEvent) (bar : ℤ × Bar) :
    (trailUpdate o bar).filled_quantity = o.filled_quantity := by
  unfold trailUpdate; split <;> rfl

theorem mem_dictSet {κ α : Type} [DecidableEq κ] (l : List (κ × α))
    (k : κ) (v : α) (p : κ × α) (h : p ∈ dictSet l k v) :
    p ∈ l ∨ p = (k, v) := by
  unfold dictSet at h
  obtain ⟨q, hq, hqe⟩ := List.mem_map.mp h
  by_cases hk : q.1 = k
  · rw [if_pos hk] at hqe
    exact Or.inr hqe.symm
  · rw [if_neg hk] at hqe
    exact Or.inl (hqe ▸ hq)

theorem mem_dictErase {κ α : Type} [DecidableEq κ] (l : List (κ × α))
    (k : κ) (p : κ × α) : p ∈ dictErase l k ↔ p ∈ l ∧ p.1 ≠ k := by
  unfold dictErase
  simp [List.mem_filter]

theorem mem_dictInsert {κ α : Type} [DecidableEq κ] (l : List (κ × α))
    (k : κ) (v : α) (p : κ × α) (h : p ∈ dictInsert l k v) :
    p ∈ l ∨ p = (k, v) := by
  unfold dictInsert at h
  split at h
  · exact mem_dictSet l k v p h
  · rcases List.mem_append.mp h with h | h
    · exact Or.inl h
    · exact Or.inr (List.mem_singleton.mp h)

theorem dictSet_keys {κ α : Type} [DecidableEq κ] (l : List (κ × α))
    (k : κ) (v : α) :
    (dictSet l k v).map Prod.fst = l.map Prod.fst := by
  unfold dictSet
  rw [List.map_map]
  apply List.map_congr_left
  intro p _
  by_cases hk : p.1 = k
  · simp [hk]
  · simp [hk]

theorem dictErase_keys_sublist {κ α : Type} [DecidableEq κ]
    (l : List (κ × α)) (k : κ) :
    List.Sublist ((dictErase l k).map Prod.fst) (l.map Prod.fst) :=
  (List.filter_sublist l).map Prod.fst

theorem dictInsert_fresh {κ α : Type} [DecidableEq κ] (l : List (κ × α))
    (k : κ) (v : α) (h : k ∉ l.map Prod.fst) :
    dictInsert l k v = l ++ [(k, v)] := by
  unfold dictInsert
  rw [if_neg]
  rw [Option.isSome_iff_exists]
  rintro ⟨q, hq⟩
  have hmem := List.mem_of_find?_eq_some hq
  have := List.find?_some hq
  simp only [decide_eq_true_eq] at this
  exact h (this ▸ List.mem_map_of_mem Prod.fst hmem)

theorem dictFind_mem {κ α : Type} [DecidableEq κ] (l : List (κ × α))
    (k : κ) (v : α) (h : dictFind l k = some v) : (k, v) ∈ l := by
  unfold dictFind at h
  cases hf : l.find? (fun p => decide (p.1 = k)) with
  | none => rw [hf] at h; exact absurd h (by simp)
  | some q =>
    rw [hf] at h
    have hmem := List.mem_of_find?_eq_some hf
    have hk := List.find?_some hf
    simp only [decide_eq_true_eq] at hk
    simp at h
    have : q = (k, v) := by
      cases q; simp_all
    exact this ▸ hmem

/-- With distinct keys, an entry is determined by its key. -/
theorem nodup_key_functional {κ α : Type} [DecidableEq κ]
    (l : List (κ × α)) (hnd : (l.map Prod.fst).Nodup) (k : κ) (a b : α)
    (ha : (k, a) ∈ l) (hb : (k, b) ∈ l) : a = b := by
  induction l with
  | nil => cases ha
  | cons p t ih =>
    rw [List.map_cons, List.nodup_cons] at hnd
    rcases List.mem_cons.mp ha with ha' | ha' <;>
      rcases List.mem_cons.mp hb with hb' | hb'
    · simpa using congrArg Prod.snd (ha'.trans hb'.symm)
    · exfalso
      apply hnd.1
      have hk : p.1 = k := by rw [← ha']
      rw [hk]
      exact List.mem_map_of_mem Prod.fst hb'
    · exfalso
      apply hnd.1
      have hk : p.1 = k := by rw [← hb']
      rw [hk]
      exact List.mem_map_of_mem Prod.fst ha'
    · exact ih hnd.2 ha' hb'

/-- Any order an `update`/immediate pass keeps resting still has quantity
outstanding. -/
theorem entryOutcome_keep_lt (bars : BarsFn) (s : EngineState) (id : ℕ)
    (o : OrderEvent) (o' : OrderEvent) (f? : Option FillEvent) (err : Bool)
    (h : entryOutcome bars s id o = (some o', f?, err)) :
    o'.filled_quantity < o'.quantity := by
  simp only [entryOutcome] at h
  split at h
  · simp at h
  · rename_i hrem
    split at h
    · simp only [Prod.mk.injEq, Option.some.injEq] at h
      obtain ⟨hk, -, -⟩ := h
      subst hk
      omega
    · simp only [Prod.mk.injEq, Option.some.injEq] at h
      obtain ⟨hk, -, -⟩ := h
      subst hk
      omega
    · rename_i f' hchk
      split at h
      · simp at h
      · rename_i hfull
        simp only [Prod.mk.injEq, Option.some.injEq] at h
        obtain ⟨hk, -, -⟩ := h
        subst hk
        simp only [not_le] at hfull
        exact hfull

/-- Any fill emitted by an `update`/immediate pass carries the order's id,
fits in the outstanding quantity, and fully fills the order exactly when
the order is removed; no exception escapes when a fill is emitted. -/
theorem entryOutcome_fill (bars : BarsFn) (s : EngineState) (id : ℕ)
    (o : OrderEvent) (keep : Option OrderEvent) (f : FillEvent) (err : Bool)
    (h : entryOutcome bars s id o = (keep, some f, err)) :
    err = false ∧ f.order_id = some id ∧
    f.quantity ≤ o.quantity - o.filled_quantity ∧
    (keep = none ↔ o.quantity ≤ o.filled_quantity + f.quantity) := by
  have hq := trailUpdate_quantity o (bars o.symbol)
  have hfl := trailUpdate_filled o (bars o.symbol)
  simp only [entryOutcome] at h
  split at h
  · simp at h
  · rename_i hrem
    split at h
    · simp at h
    · simp at h
    · rename_i f' hchk
      have hspec := checkOrder_fill_spec s id (trailUpdate o (bars o.symbol))
        (bars o.symbol) ((trailUpdate o (bars o.symbol)).quantity -
          (trailUpdate o (bars o.symbol)).filled_quantity) f' hchk
      split at h
      · rename_i hfull
        simp only [Prod.mk.injEq, Option.some.injEq] at h
        obtain ⟨hk, hf2, he⟩ := h
        subst hf2
        rw [hq, hfl] at hfull
        refine ⟨he.symm, hspec.1, ?_, ?_⟩
        · rw [hspec.2.1, hq, hfl]
          exact min_le_left _ _
        · exact ⟨fun _ => hfull, fun _ => hk.symm⟩
      · rename_i hfull
        simp only [Prod.mk.injEq, Option.some.injEq] at h
        obtain ⟨hk, hf2, he⟩ := h
        subst hf2
        rw [hq, hfl] at hfull
        refine ⟨he.symm, hspec.1, ?_, ?_⟩
        · rw [hspec.2.1, hq, hfl]
          exact min_le_left _ _
        · constructor
          · intro hknone
            rw [← hk] at hknone
            exact absurd hknone (by simp)
          · intro hc
            omega

/-- An entry that vanishes without a fill had no quantity outstanding (the
defensive removal). -/
theorem entryOutcome_none_none (bars : BarsFn) (s : EngineState) (id : ℕ)
    (o : OrderEvent) (err : Bool)
    (h : entryOutcome bars s id o = (none, none, err)) :
    o.quantity ≤ o.filled_quantity := by
  have hq := trailUpdate_quantity o (bars o.symbol)
  have hfl := trailUpdate_filled o (bars o.symbol)
  simp only [entryOutcome] at h
  split at h
  · rename_i hrem
    rw [hq, hfl] at hrem
    omega
  · rename_i hrem
    rw [hq, hfl] at hrem
    split at h
    · simp at h
    · simp at h
    · split at h
      · simp at h
      · simp at h

/-- When an exception escapes, no fill was emitted and the (extrema-
refreshed) order is kept. -/
theorem entryOutcome_err (bars : BarsFn) (s : EngineState) (id : ℕ)
    (o : OrderEvent) (keep : Option OrderEvent) (f? : Option FillEvent)
    (h : entryOutcome bars s id o = (keep, f?, true)) :
    f? = none ∧ ∃ o'', keep = some o'' := by
  simp only [entryOutcome] at h
  split at h
  · simp at h
  · split at h
    · simp only [Prod.mk.injEq] at h
      exact ⟨h.2.1.symm, _, h.1.symm⟩
    · simp at h
    · split at h
      · simp at h
      · simp at h

theorem dictSet_no_key {κ α : Type} [DecidableEq κ] (l : List (κ × α))
    (k : κ) (v : α) (h : ∀ p ∈ l, p.1 ≠ k) : dictSet l k v = l := by
  induction l with
  | nil => rfl
  | cons q t ih =>
    unfold dictSet at ih ⊢
    rw [List.map_cons, if_neg (h q (by simp)), ih (fun p hp => h p (by simp [hp]))]

theorem dictErase_no_key {κ α : Type} [DecidableEq κ] (l : List (κ × α))
    (k : κ) (h : ∀ p ∈ l, p.1 ≠ k) : dictErase l k = l := by
  induction l with
  | nil => rfl
  | cons q t ih =>
    unfold dictErase at ih ⊢
    rw [List.filter_cons, if_pos (by simpa using h q (by simp)),
      ih (fun p hp => h p (by simp [hp]))]

theorem dictSet_append_middle {κ α : Type} [DecidableEq κ]
    (pre t : List (κ × α)) (k : κ) (o₀ v : α)
    (hpre : ∀ p ∈ pre, p.1 ≠ k) (ht : ∀ p ∈ t, p.1 ≠ k) :
    dictSet (pre ++ (k, o₀) :: t) k v = pre ++ (k, v) :: t := by
  unfold dictSet
  rw [List.map_append, List.map_cons, if_pos rfl]
  have h1 : dictSet pre k v = pre := dictSet_no_key pre k v hpre
  have h2 : dictSet t k v = t := dictSet_no_key t k v ht
  unfold dictSet at h1 h2
  rw [h1, h2]

theorem dictErase_append_middle {κ α : Type} [DecidableEq κ]
    (pre t : List (κ × α)) (k : κ) (o₀ : α)
    (hpre : ∀ p ∈ pre, p.1 ≠ k) (ht : ∀ p ∈ t, p.1 ≠ k) :
    dictErase (pre ++ (k, o₀) :: t) k = pre ++ t := by
  unfold dictErase
  rw [List.filter_append, List.filter_cons, if_neg (by simp)]
  have h1 : dictErase pre k = pre := dictErase_no_key pre k hpre
  have h2 : dictErase t k = t := dictErase_no_key t k ht
  unfold dictErase at h1 h2
  rw [h1, h2]

/-- `consKeep id keep r` prepends the kept order, if any. -/
def consKeep (id : ℕ) : Option OrderEvent → List (ℕ × OrderEvent) →
    List (ℕ × OrderEvent)
  | none, r => r
  | some o, r => (id, o) :: r

/-- The per-entry recursion the `update` fold implements on a snapshot with
distinct keys: each entry is processed independently (its outcome touching
only its own key), and an escaped exception leaves the remaining entries
untouched. -/
def processEntries (bars : BarsFn) (base : EngineState) :
    List (ℕ × OrderEvent) → List (ℕ × OrderEvent) × List FillEvent × Bool
  | [] => ([], [], false)
  | e :: rest =>
    match entryOutcome bars base e.1 e.2 with
    | (keep, f?, true) => (consKeep e.1 keep rest, f?.toList, true)
    | (keep, f?, false) =>
      (consKeep e.1 keep (processEntries bars base rest).1,
       f?.toList ++ (processEntries bars base rest).2.1,
       (processEntries bars base rest).2.2)

theorem entryOutcome_orders_irrel (bars : BarsFn) (base : EngineState)
    (X : List (ℕ × OrderEvent)) (id : ℕ) (o : OrderEvent) :
    entryOutcome bars { base with orders := X } id o =
      entryOutcome bars base id o := rfl

theorem foldl_step_true (bars : BarsFn) (l : List (ℕ × OrderEvent))
    (s : EngineState) (fills : List FillEvent) :
    l.foldl (engineUpdateStep bars) (s, fills, true) = (s, fills, true) := by
  induction l with
  | nil => rfl
  | cons e t ih =>
    rw [List.foldl_cons]
    exact ih

/-- The `update` fold over a snapshot with distinct keys computes
`processEntries`. -/
theorem foldl_processEntries (bars : BarsFn) (base : EngineState) :
    ∀ (l pre : List (ℕ × OrderEvent)) (fills : List FillEvent),
    ((pre ++ l).map Prod.fst).Nodup →
    l.foldl (engineUpdateStep bars)
        ({ base with orders := pre ++ l }, fills, false) =
      ({ base with orders := pre ++ (processEntries bars base l).1 },
       fills ++ (processEntries bars base l).2.1,
       (processEntries bars base l).2.2) := by
  intro l
  induction l with
  | nil =>
    intro pre fills _
    simp [processEntries]
  | cons e t ih =>
    intro pre fills hnd
    obtain ⟨k, o₀⟩ := e
    have hmid : (k :: (pre.map Prod.fst ++ t.map Prod.fst)).Nodup := by
      rw [← List.nodup_middle]
      simpa using hnd
    have hknotin := (List.nodup_cons.mp hmid).1
    have htail := (List.nodup_cons.mp hmid).2
    have hk_pre : ∀ p ∈ pre, p.1 ≠ k := by
      intro p hp hpk
      exact hknotin (List.mem_append.mpr (Or.inl
        (hpk ▸ List.mem_map_of_mem Prod.fst hp)))
    have hk_t : ∀ p ∈ t, p.1 ≠ k := by
      intro p hp hpk
      exact hknotin (List.mem_append.mpr (Or.inr
        (hpk ▸ List.mem_map_of_mem Prod.fst hp)))
    rw [List.foldl_cons]
    have hstep : engineUpdateStep bars
        ({ base with orders := pre ++ (k, o₀) :: t }, fills, false)
          (k, o₀) =
        ((applyOutcome { base with orders := pre ++ (k, o₀) :: t } k
            (entryOutcome bars base k o₀)).1,
         fills ++ (applyOutcome { base with orders := pre ++ (k, o₀) :: t }
            k (entryOutcome bars base k o₀)).2.1,
         (applyOutcome { base with orders := pre ++ (k, o₀) :: t } k
            (entryOutcome bars base k o₀)).2.2) := rfl
    rw [hstep]
    rcases hout : entryOutcome bars base k o₀ with ⟨keep, f?, err⟩
    cases err
    · -- no exception: continue folding
      cases keep with
      | none =>
        simp only [hout, applyOutcome]
        rw [dictErase_append_middle pre t k o₀ hk_pre hk_t]
        rw [ih pre (fills ++ f?.toList) (by
          rw [List.map_append]
          exact (List.nodup_middle.mp (by simpa using hnd)).of_cons)]
        simp only [processEntries, hout, consKeep]
        simp [List.append_assoc]
      | some o' =>
        simp only [hout, applyOutcome]
        rw [dictSet_append_middle pre t k o₀ o' hk_pre hk_t]
        have hre : pre ++ (k, o') :: t = (pre ++ [(k, o')]) ++ t := by
          simp
        rw [hre]
        rw [ih (pre ++ [(k, o')]) (fills ++ f?.toList) (by
          simpa using hnd)]
        simp only [processEntries, hout, consKeep]
        simp [List.append_assoc]
    · -- exception escaped: the rest of the snapshot is skipped
      cases keep with
      | none =>
        simp only [hout, applyOutcome]
        rw [dictErase_append_middle pre t k o₀ hk_pre hk_t]
        rw [foldl_step_true]
        simp only [processEntries, hout, consKeep]
      | some o' =>
        simp only [hout, applyOutcome]
        rw [dictSet_append_middle pre t k o₀ o' hk_pre hk_t]
        rw [foldl_step_true]
        simp only [processEntries, hout, consKeep]

/-- `update` on a well-formed state is `processEntries` on its snapshot. -/
theorem engineUpdate_spec (bars : BarsFn) (s : EngineState)
    (hnd : (s.orders.map Prod.fst).Nodup) :
    engineUpdate bars s =
      ({ s with orders := (processEntries bars s s.orders).1 },
       (processEntries bars s s.orders).2.1,
       (processEntries bars s s.orders).2.2) := by
  have h := foldl_processEntries bars s s.orders [] []
    (by simpa using hnd)
  simp only [List.nil_append] at h
  unfold engineUpdate
  exact h

theorem processEntries_keys_sublist (bars : BarsFn) (base : EngineState)
    (l : List (ℕ × OrderEvent)) :
    List.Sublist ((processEntries bars base l).1.map Prod.fst)
      (l.map Prod.fst) := by
  induction l with
  | nil => simp [processEntries]
  | cons e t ih =>
    rcases hout : entryOutcome bars base e.1 e.2 with ⟨keep, f?, err⟩
    cases err <;> cases keep <;>
      simp only [processEntries, hout, consKeep, List.map_cons]
    · exact ih.cons _
    · exact ih.cons₂ _
    · exact (List.Sublist.refl _).cons _
    · exact List.Sublist.refl _

/-- Every entry `processEntries` keeps satisfies the resting-order
invariant, provided the input snapshot did (entries skipped after an
exception are returned untouched). -/
theorem processEntries_inv (bars : BarsFn) (base : EngineState)
    (l : List (ℕ × OrderEvent))
    (hl : ∀ p ∈ l, p.2.filled_quantity < p.2.quantity) :
    ∀ p ∈ (processEntries bars base l).1,
      p.2.filled_quantity < p.2.quantity := by
  induction l with
  | nil => simp [processEntries]
  | cons e t ih =>
    have hl' : ∀ p ∈ t, p.2.filled_quantity < p.2.quantity :=
      fun p hp => hl p (by simp [hp])
    rcases hout : entryOutcome bars base e.1 e.2 with ⟨keep, f?, err⟩
    cases err <;> cases keep <;>
      simp only [processEntries, hout, consKeep] <;> intro p hp
    · exact ih hl' p hp
    · rcases List.mem_cons.mp hp with hp' | hp'
      · subst hp'
        exact entryOutcome_keep_lt bars base e.1 e.2 _ f? false hout
      · exact ih hl' p hp'
    · exact hl' p hp
    · rcases List.mem_cons.mp hp with hp' | hp'
      · subst hp'
        exact entryOutcome_keep_lt bars base e.1 e.2 _ f? true hout
      · exact hl' p hp'

/-- Every fill `processEntries` emits names the key of one of the snapshot
entries. -/
theorem processEntries_fills_dom (bars : BarsFn) (base : EngineState)
    (l : List (ℕ × OrderEvent)) :
    ∀ f ∈ (processEntries bars base l).2.1,
      ∃ e ∈ l, f.order_id = some e.1 := by
  induction l with
  | nil => simp [processEntries]
  | cons e t ih =>
    rcases hout : entryOutcome bars base e.1 e.2 with ⟨keep, f?, err⟩
    cases err <;>
      simp only [processEntries, hout] <;> intro f hf
    · rcases List.mem_append.mp hf with hf' | hf'
      · cases f? with
        | none => simp at hf'
        | some f0 =>
          have hsp := entryOutcome_fill bars base e.1 e.2 keep f0 false hout
          have hff : f = f0 := by simpa using hf'
          subst hff
          exact ⟨e, by simp, hsp.2.1⟩
      · obtain ⟨e', he', hid⟩ := ih f hf'
        exact ⟨e', by simp [he'], hid⟩
    · cases f? with
      | none => simp at hf
      | some f0 =>
        have hsp := entryOutcome_fill bars base e.1 e.2 keep f0 true hout
        have hff : f = f0 := by simpa using hf
        subst hff
        exact ⟨e, by simp, hsp.2.1⟩

theorem exists_fill_append_head {f? : Option FillEvent}
    {X : List FillEvent} {id : ℕ} {C : FillEvent → Prop}
    (hhead : ∀ f ∈ f?.toList, f.order_id ≠ some id) :
    (∃ f ∈ f?.toList ++ X, f.order_id = some id ∧ C f) ↔
      (∃ f ∈ X, f.order_id = some id ∧ C f) := by
  constructor
  · rintro ⟨f, hf, h1, h2⟩
    rcases List.mem_append.mp hf with hf' | hf'
    · exact absurd h1 (hhead f hf')
    · exact ⟨f, hf', h1, h2⟩
  · rintro ⟨f, hf, h1, h2⟩
    exact ⟨f, List.mem_append_right _ hf, h1, h2⟩

/-- An entry of a distinct-key snapshot disappears from the matching pass
exactly when a fill emitted for its id completes its quantity. -/
theorem processEntries_removed_iff (bars : BarsFn) (base : EngineState) :
    ∀ (l : List (ℕ × OrderEvent)), (l.map Prod.fst).Nodup →
    ∀ (id : ℕ) (o : OrderEvent), (id, o) ∈ l →
    o.filled_quantity < o.quantity →
    (id ∉ (processEntries bars base l).1.map Prod.fst ↔
      ∃ f ∈ (processEntries bars base l).2.1, f.order_id = some id ∧
        o.quantity ≤ o.filled_quantity + f.quantity) := by
  intro l
  induction l with
  | nil => intro _ id o h; cases h
  | cons e t ih =>
    intro hnd id o hmem hinv
    have hnd2 : (e.1 :: t.map Prod.fst).Nodup := by
      rw [← List.map_cons]
      exact hnd
    have hnd' := List.nodup_cons.mp hnd2
    have hnd_t : (t.map Prod.fst).Nodup := hnd'.2
    have hhead : e.1 ∉ t.map Prod.fst := hnd'.1
    rcases List.mem_cons.mp hmem with he | hmemt
    · -- the entry under scrutiny is the head
      have he1 : e.1 = id := by rw [← he]
      have he2 : e.2 = o := by rw [← he]
      rcases hout : entryOutcome bars base e.1 e.2 with ⟨keep, f?, err⟩
      cases err
      · cases keep with
        | none =>
          cases f? with
          | none =>
            exfalso
            have := entryOutcome_none_none bars base e.1 e.2 false hout
            rw [he2] at this
            omega
          | some f0 =>
            have hsp := entryOutcome_fill bars base e.1 e.2 none f0 false hout
            have hcond := hsp.2.2.2.mp rfl
            rw [he2] at hcond
            apply iff_of_true
            · intro hcontra
              simp only [processEntries, hout, consKeep] at hcontra
              exact (he1 ▸ hhead)
                ((processEntries_keys_sublist bars base t).subset hcontra)
            · refine ⟨f0, ?_, ?_, hcond⟩
              · simp [processEntries, hout]
              · rw [hsp.2.1, he1]
        | some o' =>
          apply iff_of_false
          · simp only [processEntries, hout, consKeep, List.map_cons]
            simp [he1]
          · rintro ⟨f, hf, hfid, hfcond⟩
            simp only [processEntries, hout] at hf
            rcases List.mem_append.mp hf with hf' | hf'
            · cases f? with
              | none => simp at hf'
              | some f0 =>
                have hsp := entryOutcome_fill bars base e.1 e.2 (some o')
                  f0 false hout
                have hff : f = f0 := by simpa using hf'
                subst hff
                rw [he2] at hsp
                exact absurd (hsp.2.2.2.mpr hfcond) (by simp)
            · obtain ⟨e', he', hid⟩ :=
                processEntries_fills_dom bars base t f hf'
              rw [hid] at hfid
              have : e'.1 = id := by simpa using hfid
              exact (he1 ▸ hhead)
                (this ▸ List.mem_map_of_mem Prod.fst he')
      · obtain ⟨hfnone, o'', hkeep⟩ :=
          entryOutcome_err bars base e.1 e.2 keep f? hout
        subst hfnone hkeep
        apply iff_of_false
        · simp only [processEntries, hout, consKeep, List.map_cons]
          simp [he1]
        · rintro ⟨f, hf, -, -⟩
          simp only [processEntries, hout] at hf
          simp at hf
    · -- the entry under scrutiny sits in the tail
      have hne : e.1 ≠ id := by
        intro hc
        exact hhead (hc ▸ List.mem_map_of_mem Prod.fst hmemt)
      have ihh := ih hnd_t id o hmemt hinv
      rcases hout : entryOutcome bars base e.1 e.2 with ⟨keep, f?, err⟩
      have hhead_fill : ∀ f ∈ f?.toList, f.order_id ≠ some id := by
        intro f hf
        cases f? with
        | none => simp at hf
        | some f0 =>
          have hsp := entryOutcome_fill bars base e.1 e.2 keep f0 err hout
          have hff : f = f0 := by simpa using hf
          subst hff
          rw [hsp.2.1]
          simp [hne]
      cases err
      · cases keep with
        | none =>
          simp only [processEntries, hout, consKeep]
          rw [exists_fill_append_head hhead_fill]
          exact ihh
        | some o' =>
          simp only [processEntries, hout, consKeep, List.map_cons]
          rw [exists_fill_append_head hhead_fill]
          rw [← ihh]
          constructor
          · intro h
            intro hc
            exact h (List.mem_cons_of_mem _ hc)
          · intro h
            intro hc
            rcases List.mem_cons.mp hc with hc' | hc'
            · exact hne hc'.symm
            · exact h hc'
      · obtain ⟨hfnone, o'', hkeep⟩ :=
          entryOutcome_err bars base e.1 e.2 keep f? hout
        subst hfnone hkeep
        apply iff_of_false
        · simp only [processEntries, hout, consKeep, List.map_cons]
          intro hcontra
          exact hcontra (List.mem_cons.mpr
            (Or.inr (List.mem_map_of_mem Prod.fst hmemt)))
        · rintro ⟨f, hf, -, -⟩
          simp only [processEntries, hout] at hf
          simp at hf

theorem step_submit (s : EngineState) (o : OrderEvent) :
    step s (EngOp.submit o) = executeOrder s o := rfl

theorem step_cancel (s : EngineState) (id : ℕ) :
    step s (EngOp.cancel id) = executeCancel s id := rfl

/-- Well-formedness and the resting-order invariant hold in every state
reachable with positive-quantity, freshly constructed submissions. -/
theorem reachPos_WF_inv (s : EngineState) (h : ReachPos s) :
    EngineWF s ∧ OrdersInv s := by
  induction h with
  | init slip pct =>
    exact ⟨⟨by simp [initEngine], by simp [initEngine]⟩,
      by intro p hp; simp [initEngine] at hp⟩
  | step s op hre hcond ih =>
    obtain ⟨⟨hnd, hbound⟩, hinv⟩ := ih
    cases op with
    | submit o =>
      obtain ⟨hq, hf0⟩ := hcond o rfl
      have hfresh : (s.order_id + 1) ∉ s.orders.map Prod.fst := by
        intro hc
        exact absurd (hbound _ hc) (by omega)
      have hord : (step s (EngOp.submit o)).orders =
          s.orders ++ [(s.order_id + 1, o)] := by
        rw [step_submit]
        exact dictInsert_fresh _ _ _ hfresh
      refine ⟨⟨?_, ?_⟩, ?_⟩
      · rw [hord, List.map_append]
        rw [List.nodup_append]
        refine ⟨hnd, by simp, ?_⟩
        intro a ha hb
        simp only [List.map_cons, List.map_nil, List.mem_singleton] at hb
        exact hfresh (hb ▸ ha)
      · intro k hk
        rw [hord, List.map_append] at hk
        have hoid : (step s (EngOp.submit o)).order_id = s.order_id + 1 :=
          rfl
        rw [hoid]
        rcases List.mem_append.mp hk with hk | hk
        · exact le_trans (hbound k hk) (by omega)
        · simp only [List.map_cons, List.map_nil,
            List.mem_singleton] at hk
          omega
      · intro p hp
        rw [hord] at hp
        rcases List.mem_append.mp hp with hp | hp
        · exact hinv p hp
        · rw [List.mem_singleton.mp hp]
          simpa [hf0] using hq
    | cancel id =>
      have hsub : List.Sublist (step s (EngOp.cancel id)).orders s.orders
          ∧ (step s (EngOp.cancel id)).order_id = s.order_id := by
        rw [step_cancel]
        unfold executeCancel
        split
        · exact ⟨List.filter_sublist s.orders, rfl⟩
        · exact ⟨List.Sublist.refl _, rfl⟩
      refine ⟨⟨?_, ?_⟩, ?_⟩
      · exact ((hsub.1.map Prod.fst).nodup hnd)
      · intro k hk
        rw [hsub.2]
        exact hbound k ((hsub.1.map Prod.fst).subset hk)
      · intro p hp
        exact hinv p (hsub.1.subset hp)
    | market bars =>
      have hspec := engineUpdate_spec bars s hnd
      have hord : (step s (EngOp.market bars)).orders =
          (processEntries bars s s.orders).1 := by
        simp only [step, stepFull, hspec]
      have hoid : (step s (EngOp.market bars)).order_id = s.order_id := by
        simp only [step, stepFull, hspec]
      refine ⟨⟨?_, ?_⟩, ?_⟩
      · rw [hord]
        exact ((processEntries_keys_sublist bars s s.orders).nodup hnd)
      · intro k hk
        rw [hoid]
        rw [hord] at hk
        exact hbound k
          ((processEntries_keys_sublist bars s s.orders).subset hk)
      · intro p hp
        rw [hord] at hp
        exact processEntries_inv bars s s.orders hinv p hp
    | immediate id bars =>
      cases hfind : dictFind s.orders id with
      | none =>
        have heq : step s (EngOp.immediate id bars) = s := by
          simp only [step, stepFull, processImmediateOrder, hfind]
        rw [heq]
        exact ⟨⟨hnd, hbound⟩, hinv⟩
      | some o₀ =>
        rcases hout : entryOutcome bars s id o₀ with ⟨keep, f?, err⟩
        have hstep : step s (EngOp.immediate id bars) =
            (applyOutcome s id (keep, f?, err)).1 := by
          simp only [step, stepFull, processImmediateOrder, hfind, hout]
        cases keep with
        | none =>
          have hord : (step s (EngOp.immediate id bars)).orders =
              dictErase s.orders id := by rw [hstep]; rfl
          have hoid : (step s (EngOp.immediate id bars)).order_id =
              s.order_id := by rw [hstep]; rfl
          refine ⟨⟨?_, ?_⟩, ?_⟩
          · rw [hord]
            exact ((dictErase_keys_sublist s.orders id).nodup hnd)
          · intro k hk
            rw [hoid]
            rw [hord] at hk
            exact hbound k ((dictErase_keys_sublist s.orders id).subset hk)
          · intro p hp
            rw [hord] at hp
            exact hinv p ((mem_dictErase _ _ _).mp hp).1
        | some o₁ =>
          have hord : (step s (EngOp.immediate id bars)).orders =
              dictSet s.orders id o₁ := by rw [hstep]; rfl
          have hoid : (step s (EngOp.immediate id bars)).order_id =
              s.order_id := by rw [hstep]; rfl
          refine ⟨⟨?_, ?_⟩, ?_⟩
          · rw [hord, dictSet_keys]
            exact hnd
          · intro k hk
            rw [hoid]
            rw [hord, dictSet_keys] at hk
            exact hbound k hk
          · intro p hp
            rw [hord] at hp
            rcases mem_dictSet _ _ _ p hp with hp' | hp'
            · exact hinv p hp'
            · rw [hp']
              exact entryOutcome_keep_lt bars s id o₀ o₁ f? err hout

theorem not_key_iff (l : List (ℕ × OrderEvent)) (id : ℕ) :
    (∀ p ∈ l, p.1 ≠ id) ↔ id ∉ l.map Prod.fst := by
  rw [List.mem_map]
  push_neg
  constructor
  · rintro h p hp rfl
    exact h p hp rfl
  · rintro h p hp hc
    exact h p hp hc

/-- C9 (amended): in every engine state reachable by submit / cancel /
market / immediate operations in which each submitted order is freshly
constructed (`filled_quantity = 0`) with positive quantity, every resting
entry satisfies `filled_quantity < quantity`; and an entry is removed by
an operation exactly when that operation is its cancellation or emits a
fill for its id that completes its quantity. -/
theorem C9_resting_set_invariant (s : EngineState) (hreach : ReachPos s) :
    (∀ p ∈ s.orders, p.2.filled_quantity < p.2.quantity) ∧
    (∀ (op : EngOp) (id : ℕ) (o : OrderEvent), (id, o) ∈ s.orders →
      ((∀ p ∈ (step s op).orders, p.1 ≠ id) ↔
        (op = EngOp.cancel id ∨
         ∃ f ∈ (stepFull s op).2.1, f.order_id = some id ∧
           o.quantity ≤ o.filled_quantity + f.quantity))) := by
  obtain ⟨⟨hnd, hbound⟩, hinv⟩ := reachPos_WF_inv s hreach
  refine ⟨hinv, ?_⟩
  intro op id o hmem
  have hinvo : o.filled_quantity < o.quantity := hinv (id, o) hmem
  have hidkeys : id ∈ s.orders.map Prod.fst :=
    List.mem_map_of_mem Prod.fst hmem
  rw [not_key_iff]
  cases op with
  | submit o₀ =>
    have hfresh : (s.order_id + 1) ∉ s.orders.map Prod.fst := by
      intro hc
      exact absurd (hbound _ hc) (by omega)
    have hord : (step s (EngOp.submit o₀)).orders =
        s.orders ++ [(s.order_id + 1, o₀)] := by
      rw [step_submit]
      exact dictInsert_fresh _ _ _ hfresh
    apply iff_of_false
    · rw [hord, List.map_append]
      intro hcontra
      exact hcontra (List.mem_append.mpr (Or.inl hidkeys))
    · rintro (hc | ⟨f, hf, -, -⟩)
      · exact EngOp.noConfusion hc
      · simp only [stepFull] at hf
        simp at hf
  | cancel cid =>
    by_cases hcc : cid = id
    · subst hcc
      have hsome : (s.orders.find? (fun p => decide (p.1 = cid))).isSome := by
      -- id is resting, so find? succeeds
        rw [List.find?_isSome]
        exact ⟨(cid, o), hmem, by simp⟩
      have hord : (step s (EngOp.cancel cid)).orders =
          dictErase s.orders cid := by
        rw [step_cancel]
        unfold executeCancel
        rw [if_pos hsome]
      apply iff_of_true
      · rw [hord]
        intro hcontra
        obtain ⟨p, hp, hpk⟩ := List.mem_map.mp hcontra
        exact ((mem_dictErase _ _ _).mp hp).2 hpk
      · exact Or.inl rfl
    · have hord : (step s (EngOp.cancel cid)).orders = s.orders ∨
          (step s (EngOp.cancel cid)).orders = dictErase s.orders cid := by
        rw [step_cancel]
        unfold executeCancel
        split
        · exact Or.inr rfl
        · exact Or.inl rfl
      apply iff_of_false
      · rcases hord with hord | hord <;> rw [hord] <;> intro hcontra
        · exact hcontra hidkeys
        · apply hcontra
          apply List.mem_map.mpr
          refine ⟨(id, o), ?_, rfl⟩
          exact (mem_dictErase _ _ _).mpr ⟨hmem, by simpa using Ne.symm hcc⟩
      · rintro (hc | ⟨f, hf, -, -⟩)
        · exact hcc (by injection hc)
        · simp only [stepFull] at hf
          simp at hf
  | market bars =>
    have hspec := engineUpdate_spec bars s hnd
    have hord : (step s (EngOp.market bars)).orders =
        (processEntries bars s s.orders).1 := by
      simp only [step, stepFull, hspec]
    have hfills : (stepFull s (EngOp.market bars)).2.1 =
        (processEntries bars s s.orders).2.1 := by
      simp only [stepFull, hspec]
    rw [hord, hfills]
    rw [or_iff_right (by intro hc; exact EngOp.noConfusion hc)]
    exact processEntries_removed_iff bars s s.orders hnd id o hmem hinvo
  | immediate iid bars =>
    rw [or_iff_right (by intro hc; exact EngOp.noConfusion hc)]
    cases hfind : dictFind s.orders iid with
    | none =>
      have heq : stepFull s (EngOp.immediate iid bars) = (s, [], false) := by
        simp only [stepFull, processImmediateOrder, hfind]
      apply iff_of_false
      · simp only [step, heq]
        intro hcontra
        exact hcontra hidkeys
      · rintro ⟨f, hf, -, -⟩
        rw [heq] at hf
        simp at hf
    | some o₀ =>
      have ho₀mem := dictFind_mem _ _ _ hfind
      rcases hout : entryOutcome bars s iid o₀ with ⟨keep, f?, err⟩
      have hstep : stepFull s (EngOp.immediate iid bars) =
          applyOutcome s iid (keep, f?, err) := by
        simp only [stepFull, processImmediateOrder, hfind, hout]
      by_cases hii : iid = id
      · subst hii
        have ho : o₀ = o := nodup_key_functional s.orders hnd iid o₀ o
          ho₀mem hmem
        subst ho
        cases keep with
        | some o₁ =>
          apply iff_of_false
          · have hord : (step s (EngOp.immediate iid bars)).orders =
                dictSet s.orders iid o₁ := by
              simp only [step, hstep]; rfl
            rw [hord, dictSet_keys]
            intro hcontra
            exact hcontra hidkeys
          · rintro ⟨f, hf, hfid, hfcond⟩
            rw [hstep] at hf
            simp only [applyOutcome] at hf
            cases f? with
            | none => simp at hf
            | some f0 =>
              have hsp := entryOutcome_fill bars s iid o₀ (some o₁) f0 err
                hout
              have hff : f = f0 := by simpa using hf
              subst hff
              exact absurd (hsp.2.2.2.mpr hfcond) (by simp)
        | none =>
          cases f? with
          | none =>
            exfalso
            have := entryOutcome_none_none bars s iid o₀ err hout
            omega
          | some f0 =>
            have hsp := entryOutcome_fill bars s iid o₀ none f0 err hout
            apply iff_of_true
            · have hord : (step s (EngOp.immediate iid bars)).orders =
                  dictErase s.orders iid := by
                simp only [step, hstep]; rfl
              rw [hord]
              intro hcontra
              obtain ⟨p, hp, hpk⟩ := List.mem_map.mp hcontra
              exact ((mem_dictErase _ _ _).mp hp).2 hpk
            · refine ⟨f0, ?_, hsp.2.1, hsp.2.2.2.mp rfl⟩
              rw [hstep]
              simp [applyOutcome]
      · have hheadfill : ∀ f ∈ f?.toList, f.order_id ≠ some id := by
          intro f hf
          cases f? with
          | none => simp at hf
          | some f0 =>
            have hsp := entryOutcome_fill bars s iid o₀ keep f0 err hout
            have hff : f = f0 := by simpa using hf
            subst hff
            rw [hsp.2.1]
            simp
            exact hii
        apply iff_of_false
        · cases keep with
          | some o₁ =>
            have hord : (step s (EngOp.immediate iid bars)).orders =
                dictSet s.orders iid o₁ := by
              simp only [step, hstep]; rfl
            rw [hord, dictSet_keys]
            intro hcontra
            exact hcontra hidkeys
          | none =>
            have hord : (step s (EngOp.immediate iid bars)).orders =
                dictErase s.orders iid := by
              simp only [step, hstep]; rfl
            rw [hord]
            intro hcontra
            apply hcontra
            apply List.mem_map.mpr
            refine ⟨(id, o), ?_, rfl⟩
            exact (mem_dictErase _ _ _).mpr
              ⟨hmem, by simpa using fun hc => hii hc.symm⟩
        · rintro ⟨f, hf, hfid, -⟩
          rw [hstep] at hf
          have hf' : f ∈ f?.toList := by
            cases keep <;> simpa [applyOutcome] using hf
          exact hheadfill f hf' hfid

def c9badOrder : OrderEvent :=
  OrderEvent.make "AAPL" "MKT" 0 "BUY" none none none false

/-- C9 counterexample: submitting a quantity-0 order (a legal
`OrderEvent.__init__` call) reaches a state whose resting entry violates
`filled_quantity < quantity` — the invariant does not hold over all
reachable states of the claim's operations. -/
theorem C9_counterexample :
    Reach (step (initEngine 0 1) (EngOp.submit c9badOrder)) ∧
    ∃ p ∈ (step (initEngine 0 1) (EngOp.submit c9badOrder)).orders,
      ¬ (p.2.filled_quantity < p.2.quantity) := by
  refine ⟨Reach.step _ _ (Reach.init 0 1), ⟨(1, c9badOrder), ?_, ?_⟩⟩
  · show (1, c9badOrder) ∈ (executeOrder (initEngine 0 1) c9badOrder).orders
    simp [executeOrder, initEngine, dictInsert, List.find?]
  · decide

def c9goodOrder : OrderEvent :=
  OrderEvent.make "AAPL" "MKT" 10 "BUY" none none none false

def c9s1 : EngineState := step (initEngine 0 1) (EngOp.submit c9goodOrder)

/-- Witness for C9 at the state reached by one positive-quantity
submission. -/
theorem C9_resting_set_invariant_witness :
    ReachPos c9s1 ∧
    ((∀ p ∈ c9s1.orders, p.2.filled_quantity < p.2.quantity) ∧
     (∀ (op : EngOp) (id : ℕ) (o : OrderEvent), (id, o) ∈ c9s1.orders →
       ((∀ p ∈ (step c9s1 op).orders, p.1 ≠ id) ↔
         (op = EngOp.cancel id ∨
          ∃ f ∈ (stepFull c9s1 op).2.1, f.order_id = some id ∧
            o.quantity ≤ o.filled_quantity + f.quantity)))) :=
  have hre : ReachPos c9s1 :=
    ReachPos.step _ _ (ReachPos.init 0 1)
      (fun o ho => by
        injection ho with h
        subst h
        exact ⟨by decide, rfl⟩)
  ⟨hre, C9_resting_set_invariant c9s1 hre⟩
